import Mathlib

/-!
Verification of the CopsAndRobbers retrograde solvers.

This file shallowly embeds the C++ sources of the repository
(`Graph.cpp`, the `AdjacencyList` in `k_cops_2.cpp`, and the solver
variants `k_cops.cpp`, `k_cops_3.cpp`, `k_cops_4.cpp`, `k_cops_5.cpp`,
`k_cops_rounds.cpp`) as executable Lean definitions and proves or
refutes the specification claims about them.

Modelling conventions:
* machine integers become `Nat` with explicit `% 2 ^ 64` / `% 2 ^ 256`
  reductions wherever the C code can wrap (`size_t`, `uint8_t`);
* mutable flat arrays become `List` values threaded through folds,
  with `List.getD` / `List.set` for element access;
* unbounded C loops (`while` loops whose bound is data dependent)
  become fuel-indexed recursions; the fuel is a modelling artifact and
  every theorem either proves the fuel suffices or takes the
  successful-termination equation as a hypothesis;
* reads past the end of an allocation (which are undefined behaviour
  in C) are modelled as reading past the end of the embedded list,
  i.e. the scan simply stops; theorems about such reads are stated on
  inputs where the C program stays inside its allocation.
-/

set_option maxRecDepth 100000
set_option linter.unusedVariables false

namespace CAR

/-! ## Graph oracle (`Graph.h`)

The graph is an adjacency-matrix oracle: a node count `N` and an edge
predicate (`Graph::getEdge`). -/
structure CRGraph where
  N : Nat
  edge : Nat → Nat → Bool

/-- Oracle-reported neighbours of `v`, in increasing matrix column
order.  This is the row content that `AdjacencyList::AdjacencyList`
(in `k_cops_2.cpp`) writes for node `v`: it scans columns
`j = 0 .. N-1` and records those with `getEdge(v, j)`. -/
def nbrs (g : CRGraph) (v : Nat) : List Nat :=
  (List.range g.N).filter (fun j => g.edge v j)

/-- Degree of `v` as seen by the adjacency-list builder. -/
def deg (g : CRGraph) (v : Nat) : Nat := (nbrs g v).length

/-- Maximum degree over all nodes (`AdjacencyList` Step 1: start from
`0` and take the running maximum of the row degrees). -/
def maxDeg (g : CRGraph) : Nat :=
  ((List.range g.N).map (fun i => deg g i)).foldl max 0

/-- The flat `AdjacencyList::edges` array: `N` rows of stride
`maxDegree`, row `v` holding `nbrs v` followed by `255` padding
(`memset` to `255`, then populated). -/
def adjFlat (g : CRGraph) : List Nat :=
  (List.range g.N).flatMap
    (fun i => nbrs g i ++ List.replicate (maxDeg g - deg g i) 255)

/-- What every caller of `AdjacencyList::getEdges` actually reads: the
entries starting at offset `v * maxDegree`, up to the first `255`
sentinel.  A read past the end of the pool (undefined behaviour in C)
is modelled as stopping at the end of the list. -/
def edgeScan (g : CRGraph) (v : Nat) : List Nat :=
  ((adjFlat g).drop (v * maxDeg g)).takeWhile (fun x => x != 255)

/-- Robber degree as computed by `initializeCaptures` in
`k_cops_3.cpp` / `k_cops_4.cpp` / `k_cops_5.cpp`: `eCount` starts at
`1` (for staying in place) and counts scan entries up to the first
sentinel. -/
def robberDeg (g : CRGraph) (r : Nat) : Nat := 1 + (edgeScan g r).length

/-! ## Lexicographic comparison

`std::memcmp` on `k`-byte records and `operator<` on `std::vector<int>`
both compare lexicographically; `lexLt` is the strict order (with the
`std::vector` shorter-prefix convention, which never fires on the
equal-length records used by the code). -/
def lexLt : List Nat → List Nat → Bool
  | [], [] => false
  | [], _ :: _ => true
  | _ :: _, [] => false
  | a :: as, b :: bs => if a < b then true else if b < a then false else lexLt as bs

/-- Three-way comparison as `std::memcmp` returns it (collapsed to
`-1 / 0 / 1`); only ever used on equal-length records. -/
def cmp3 : List Nat → List Nat → Int
  | [], _ => 0
  | _ :: _, [] => 0
  | a :: as, b :: bs => if a < b then -1 else if b < a then 1 else cmp3 as bs

/-! ## Configuration enumeration

`generateCopConfigs` (identical in `k_cops_2/3/4/5/rounds`): iterative
odometer starting from `(0,…,0)`; find the rightmost entry `≠ N-1`,
increment it, and reset the suffix to the new value.  The odometer
"find the rightmost index" step walks from the end of the tuple, so it
is defined on the reversed tuple. -/
def nextRev (N : Nat) : List Nat → Option (List Nat)
  | [] => none
  | x :: rest =>
    if x = N - 1 then
      match nextRev N rest with
      | none => none
      | some [] => none
      | some (y :: r) => some (y :: y :: r)
    else some ((x + 1) :: rest)

/-- Successor configuration in generation order (`none` when every
entry equals `N - 1`, i.e. the loop breaks). -/
def nextConfig (N : Nat) (c : List Nat) : Option (List Nat) :=
  (nextRev N c.reverse).map List.reverse

/-- The emission loop: emit the current tuple, advance, repeat.  The
fuel argument is a modelling artifact for the C `while(true)` loop;
`N ^ k` is proved sufficient below. -/
def genFrom (N : Nat) : Nat → List Nat → List (List Nat)
  | 0, _ => []
  | fuel + 1, c =>
    c :: (match nextConfig N c with
          | none => []
          | some c2 => genFrom N fuel c2)

/-- The full list of emitted cop configurations, in emission order. -/
def generateCopConfigs (N k : Nat) : List (List Nat) :=
  genFrom N (N ^ k) (List.replicate k 0)

/-- The precomputed configuration count (step 1 of
`generateCopConfigs` in `k_cops_2/3/4/5/rounds`): combinations with
replacement via the multiplicative formula, in wrapping 64-bit
(`size_t`) arithmetic with truncating division. -/
def countConfigs (k N : Nat) : Nat :=
  let n := N + k - 1
  if k > n then 0
  else if k = 0 || k = n then 1
  else
    let kv := if k > n / 2 then n - k else k
    (List.range kv).foldl (fun res i => res * (n - i) % 2 ^ 64 / (i + 1)) 1

/-- `generateCopConfigs` of `k_cops_5.cpp` including its `k > MAX_COPS`
guard (`MAX_COPS = 256`): `none` models the `nullptr` rejection,
otherwise the precomputed count is returned together with the emitted
tuple list. -/
def generateCopConfigs5 (k N : Nat) : Option (Nat × List (List Nat)) :=
  if k > 256 then none
  else some (countConfigs k N, generateCopConfigs N k)

/-- The recursive configuration generator of `k_cops.cpp`
(`generateCopConfigs(k, N, currentVal, …)`): for each `i` in
`[currentVal, N)` place a cop on `i` and recurse with minimum `i`. -/
def genConfigsRec (N : Nat) : Nat → Nat → List (List Nat)
  | 0, _ => [[]]
  | k + 1, v =>
    (List.range' v (N - v)).flatMap
      (fun i => (genConfigsRec N k i).map (fun t => i :: t))

/-- A sorted cop configuration: `k` node ids below `N` in
non-decreasing order. -/
def validTuple (N k : Nat) (c : List Nat) : Prop :=
  c.length = k ∧ (∀ x ∈ c, x < N) ∧ c.Pairwise (· ≤ ·)

instance (N k : Nat) (c : List Nat) : Decidable (validTuple N k c) := by
  unfold validTuple; infer_instance

/-! ## All length-`k` lists over `[0, N)`: a crude cardinality bound -/
def allLists (N : Nat) : Nat → List (List Nat)
  | 0 => [[]]
  | k + 1 => (List.range N).flatMap (fun i => (allLists N k).map (fun t => i :: t))

/-! ## Exactness of the precomputed count -/
/-- The reduced iteration count `k_val` used by the multiplicative
binomial loop (after the symmetry substitution). -/
def binKv (k N : Nat) : Nat :=
  let n := N + k - 1
  if k > n / 2 then n - k else k

/-- No 64-bit overflow in the multiplicative binomial loop: every
intermediate product fits in a `size_t`. -/
def countNoOverflow (k N : Nat) : Prop :=
  ∀ i < binKv k N, (N + k - 1).choose i * ((N + k - 1) - i) < 2 ^ 64

instance (k N : Nat) : Decidable (countNoOverflow k N) := by
  unfold countNoOverflow; infer_instance

/-! ## Binary search over the packed configuration array -/
/-- The binary search used by `buildTransitions` (`k_cops_3.cpp`,
`k_cops_4.cpp`, `k_cops_rounds.cpp`) and by the on-the-fly lookup in
`k_cops_5.cpp` (whose unrolled `k == 4` compare is the same
elementwise comparison): probe the record at `mid`, halve `[left,
right]`.  `none` models the `(size_t)-1` not-found sentinel.  The
`right = mid - 1` update wraps in `size_t` arithmetic exactly as in C;
the fuel is a modelling artifact for the C `while` loop and is proved
sufficient whenever the probe is present. -/
def bsearchAux (cfgs : List (List Nat)) (key : List Nat) :
    Nat → Nat → Nat → Option Nat
  | 0, _, _ => none
  | fuel + 1, left, right =>
    if left ≤ right then
      let mid := left + (right - left) / 2
      let c := cmp3 (cfgs.getD mid []) key
      if c = 0 then some mid
      else if c < 0 then bsearchAux cfgs key fuel (mid + 1) right
      else bsearchAux cfgs key fuel left ((mid + (2 ^ 64 - 1)) % 2 ^ 64)
    else none

def bsearch (cfgs : List (List Nat)) (key : List Nat) : Option Nat :=
  bsearchAux cfgs key (cfgs.length + 1) 0 (cfgs.length - 1)

/-! ## The iterative-scan solver (`k_cops.cpp`) -/
/-- Adjacency rows used by `k_cops.cpp` (step 1 of
`solveCopsAndRobbers`): built straight from the matrix with the
self-loop `i == j` always included. -/
def adjK (g : CRGraph) (i : Nat) : List Nat :=
  (List.range g.N).filter (fun j => g.edge i j || i == j)

/-- Cartesian product of per-cop option lists, in the recursion order
of `generateTeamMoves` (first cop outermost) — also the emission order
of the odometer loops in `buildTransitions` (rightmost cop fastest). -/
def tuplesProd : List (List Nat) → List (List Nat)
  | [] => [[]]
  | o :: rest => o.flatMap (fun v => (tuplesProd rest).map (fun t => v :: t))

/-- `std::lower_bound` over the sorted configuration vector with the
`std::vector` lexicographic `operator<`: the partition point, i.e. the
number of records strictly below the key. -/
def lowerBoundIdx (l : List (List Nat)) (key : List Nat) : Nat :=
  l.countP (fun c => lexLt c key)

/-- `generateTeamMoves` of `k_cops.cpp` for one configuration: each
tuple of simultaneous cop moves is sorted, resolved to its id with
`lower_bound`, and appended unless already present. -/
def teamMoves (g : CRGraph) (cfgs : List (List Nat)) (c : List Nat) : List Nat :=
  (tuplesProd (c.map (fun u => adjK g u))).foldl
    (fun acc mv =>
      let nid := lowerBoundIdx cfgs (List.insertionSort (· ≤ ·) mv)
      if nid ∈ acc then acc else acc ++ [nid]) []

/-- The three state arrays of `k_cops.cpp` (`copTurnWins`,
`robberTurnWins`, `robberSafeMoves`), index `stateId = cId * N + r`. -/
structure ScanState where
  cop : List Bool
  rob : List Bool
  safe : List Nat

/-- One state of the initialization (step 1 in `k_cops.cpp`): a
capture state gets both win flags and zero safe moves, any other state
gets `adj[r].size()` safe moves. -/
def scanInitBody (g : CRGraph) (cfgs : List (List Nat)) (st : ScanState) (s : Nat) :
    ScanState :=
  let cId := s / g.N
  let r := s % g.N
  if (cfgs.getD cId []).contains r then
    { cop := st.cop.set s true, rob := st.rob.set s true, safe := st.safe.set s 0 }
  else { st with safe := st.safe.set s (adjK g r).length }

/-- Initialization over all states; arrays start zero-initialized. -/
def scanInit (g : CRGraph) (cfgs : List (List Nat)) : ScanState :=
  (List.range (cfgs.length * g.N)).foldl (scanInitBody g cfgs)
    ⟨List.replicate (cfgs.length * g.N) false,
     List.replicate (cfgs.length * g.N) false,
     List.replicate (cfgs.length * g.N) 0⟩

/-- Robber side of the scan body (`k_cops.cpp` "RIGHT SIDE"): recount
the safe moves of `(cId, r)` from the current cop flags, store the
count, and flag a trapped robber.  The `Bool` reports whether the flag
was newly set. -/
def scanRobSide (g : CRGraph) (st : ScanState) (cId r s : Nat) : ScanState × Bool :=
  if st.rob.getD s false then (st, false)
  else
    let safeCount :=
      ((adjK g r).filter (fun rn => !st.cop.getD (cId * g.N + rn) false)).length
    let st1 : ScanState := { st with safe := st.safe.set s safeCount }
    if safeCount = 0 then ({ st1 with rob := st1.rob.set s true }, true)
    else (st1, false)

/-- Cop side of the scan body (`k_cops.cpp` "LEFT SIDE"): flag a win
when some team move reaches a robber-losing state. -/
def scanCopSide (g : CRGraph) (trans : List (List Nat)) (st : ScanState)
    (cId r s : Nat) : ScanState × Bool :=
  if st.cop.getD s false then (st, false)
  else if (trans.getD cId []).any (fun nc => st.rob.getD (nc * g.N + r) false) then
    ({ st with cop := st.cop.set s true }, true)
  else (st, false)

/-- One state update of the scan pass (`k_cops.cpp` main loop body):
skip fully-decided states, otherwise robber side then cop side, with
in-place updates threaded through and `newWinsThisPass` accumulated. -/
def scanBody (g : CRGraph) (cfgs trans : List (List Nat)) :
    ScanState × Nat → Nat → ScanState × Nat :=
  fun acc s =>
    let st := acc.1
    let cnt := acc.2
    let cId := s / g.N
    let r := s % g.N
    if st.cop.getD s false && st.rob.getD s false then acc
    else
      let p1 := scanRobSide g st cId r s
      let p2 := scanCopSide g trans p1.1 cId r s
      (p2.1, cnt + (if p1.2 then 1 else 0) + (if p2.2 then 1 else 0))

/-- One full pass over all states, returning the updated state and the
number of newly flagged wins (`newWinsThisPass`). -/
def scanStep (g : CRGraph) (cfgs trans : List (List Nat)) (st : ScanState) :
    ScanState × Nat :=
  (List.range (cfgs.length * g.N)).foldl (scanBody g cfgs trans) (st, 0)

/-- The outer `while (changed)` loop; terminates when a pass flags
nothing.  Fuel is a modelling artifact; `none` = fuel exhausted. -/
def scanLoop (g : CRGraph) (cfgs trans : List (List Nat)) :
    Nat → ScanState → Option ScanState
  | 0, _ => none
  | fuel + 1, st =>
    let p := scanStep g cfgs trans st
    if p.2 = 0 then some p.1 else scanLoop g cfgs trans fuel p.1

def kcopsConfigs (g : CRGraph) (k : Nat) : List (List Nat) :=
  genConfigsRec g.N k 0

def kcopsTrans (g : CRGraph) (k : Nat) : List (List Nat) :=
  (kcopsConfigs g k).map (fun c => teamMoves g (kcopsConfigs g k) c)

/-- `solveCopsAndRobbers` of `k_cops.cpp` up to the end of the main
loop: `none` is the `N = 0` early return (or fuel exhaustion of the
modelled loop), `some` the state tables at the fixed point. -/
def solveKCops (g : CRGraph) (k : Nat) : Option ScanState :=
  if g.N = 0 then none
  else
    scanLoop g (kcopsConfigs g k) (kcopsTrans g k)
      (2 * ((kcopsConfigs g k).length * g.N) + 1)
      (scanInit g (kcopsConfigs g k))

/-! ## Invariants of the scan solver -/
/-- A state `s = cId * N + r` is a capture state of the configuration
list. -/
def Caught (g : CRGraph) (cfgs : List (List Nat)) (s : Nat) : Prop :=
  (s % g.N) ∈ cfgs.getD (s / g.N) []

/-- Every set cop flag is justified: the state is a capture, or some
recorded team transition leads to a robber-losing state. -/
def Jus (g : CRGraph) (cfgs trans : List (List Nat)) (st : ScanState) : Prop :=
  ∀ s, st.cop.getD s false = true →
    Caught g cfgs s ∨
    ∃ nc ∈ trans.getD (s / g.N) [], st.rob.getD (nc * g.N + (s % g.N)) false = true

/-- Every capture state keeps its cop flag. -/
def CaughtCop (g : CRGraph) (cfgs : List (List Nat)) (st : ScanState) : Prop :=
  ∀ s, s < cfgs.length * g.N → Caught g cfgs s → st.cop.getD s false = true

/-! ## Concrete input graphs used as test vectors -/
/-- The path graph `P3` (vertices `0 - 1 - 2`). Vertex `1` attains the
maximum degree, so its adjacency row is completely full. -/
def pathG3 : CRGraph :=
  ⟨3, fun i j => decide ((i, j) ∈ [(0, 1), (1, 0), (1, 2), (2, 1)])⟩

/-! ## The queue-based retrograde solver (`k_cops_3.cpp`) -/
/-- `std::unique` after sorting: drop consecutive duplicates. -/
def uniqueConsec : List Nat → List Nat
  | [] => []
  | [a] => [a]
  | a :: b :: t => if a = b then uniqueConsec (b :: t) else a :: uniqueConsec (b :: t)

/-- `std::sort` followed by `std::unique` + `erase`. -/
def sortDedup (l : List Nat) : List Nat :=
  uniqueConsec (List.insertionSort (· ≤ ·) l)

/-- One CSR row of `buildTransitions` (`k_cops_3.cpp`, also
`k_cops_4.cpp` and `k_cops_rounds.cpp`): per-cop option lists are the
current node followed by its sentinel-terminated row scan; the
odometer enumerates the Cartesian product; each tuple is sorted,
resolved by binary search and stored premultiplied by `N` (in
`size_t` arithmetic, also when the search returns the `(size_t)-1`
sentinel); finally sorted and deduplicated. -/
def buildRow (g : CRGraph) (cfgs : List (List Nat)) (c : List Nat) : List Nat :=
  sortDedup ((tuplesProd (c.map (fun u => u :: edgeScan g u))).map
    (fun mv =>
      ((bsearch cfgs (List.insertionSort (· ≤ ·) mv)).getD (2 ^ 64 - 1) * g.N) % 2 ^ 64))

/-- The full CSR transition table, one row per configuration (the
`transitionHeads` offsets are implicit in the row structure). -/
def buildTransitions3 (g : CRGraph) (cfgs : List (List Nat)) : List (List Nat) :=
  cfgs.map (buildRow g cfgs)

/-- The `ROBBER_TURN_BIT`: the most significant bit of a 64-bit
`size_t`, packed onto queued state ids. -/
def ROBBIT : Nat := 2 ^ 63

/-- State tables of `k_cops_3.cpp`: three `uint8_t` planes of one
memory pool (`copTurnWins`, `robberTurnWins`, `robberSafeMoves`). -/
structure K3State where
  cop : List Nat
  rob : List Nat
  safe : List Nat

/-- `initializeCaptures` (`k_cops_3.cpp`): captures get both flags,
zero safe moves, and both turn entries pushed; other states get the
scan-derived robber degree (cast to `uint8_t`). -/
def k3InitBody (g : CRGraph) (cfgs : List (List Nat))
    (acc : K3State × List Nat) (s : Nat) : K3State × List Nat :=
  let st := acc.1
  let q := acc.2
  let cId := s / g.N
  let r := s % g.N
  if (cfgs.getD cId []).contains r then
    (⟨st.cop.set s 1, st.rob.set s 1, st.safe.set s 0⟩, q ++ [s, s + ROBBIT])
  else ({ st with safe := st.safe.set s (robberDeg g r % 256) }, q)

def k3Init (g : CRGraph) (cfgs : List (List Nat)) : K3State × List Nat :=
  (List.range (cfgs.length * g.N)).foldl (k3InitBody g cfgs)
    (⟨List.replicate (cfgs.length * g.N) 0,
      List.replicate (cfgs.length * g.N) 0,
      List.replicate (cfgs.length * g.N) 0⟩, [])

/-- Robber-turn queue entry (`k_cops_3.cpp` main loop, MSB set): every
cop-turn predecessor along the CSR row becomes winning; first setter
pushes. -/
def k3ProcessRob (g : CRGraph) (trans : List (List Nat)) (st : K3State)
    (q : List Nat) (cId r : Nat) : K3State × List Nat :=
  (trans.getD cId []).foldl
    (fun acc t =>
      let ps := (t + r) % 2 ^ 64
      if acc.1.cop.getD ps 0 = 0 then
        ({ acc.1 with cop := acc.1.cop.set ps 1 }, acc.2 ++ [ps])
      else acc) (st, q)

/-- One guarded safe-move decrement (`k_cops_3.cpp`): skip states
already lost for the robber; otherwise decrement (in `uint8_t`
arithmetic) and flag + push at zero. -/
def k3Dec (acc : K3State × List Nat) (ps : Nat) : K3State × List Nat :=
  let st := acc.1
  if st.rob.getD ps 0 = 0 then
    let newSafe := (st.safe.getD ps 0 + 255) % 256
    let st1 : K3State := { st with safe := st.safe.set ps newSafe }
    if newSafe = 0 then ({ st1 with rob := st1.rob.set ps 1 }, acc.2 ++ [ps + ROBBIT])
    else (st1, acc.2)
  else acc

/-- Cop-turn queue entry (MSB clear): the robber predecessors — stay in
place, then each scanned neighbour — lose one safe escape. -/
def k3ProcessCop (g : CRGraph) (st : K3State) (q : List Nat) (cId r : Nat) :
    K3State × List Nat :=
  (edgeScan g r).foldl (fun acc u => k3Dec acc (cId * g.N + u))
    (k3Dec (st, q) (cId * g.N + r))

/-- The retrograde queue loop of `k_cops_3.cpp`; the queue is FIFO
(read head advances, pushes append).  Fuel is a modelling artifact. -/
def k3Loop (g : CRGraph) (trans : List (List Nat)) :
    Nat → K3State → List Nat → Option K3State
  | 0, _, _ => none
  | fuel + 1, st, q =>
    match q with
    | [] => some st
    | pk :: rest =>
      let s := pk % ROBBIT
      let cId := s / g.N
      let r := s % g.N
      if ROBBIT ≤ pk then
        let p := k3ProcessRob g trans st rest cId r
        k3Loop g trans fuel p.1 p.2
      else
        let p := k3ProcessCop g st rest cId r
        k3Loop g trans fuel p.1 p.2

/-- `solveCopsAndRobbers` of `k_cops_3.cpp` up to the end of the
retrograde loop: `none` models the `N = 0` early return, the
`generateCopConfigs` rejection, and (as a modelling artifact) fuel
exhaustion. -/
def solveK3 (g : CRGraph) (k : Nat) : Option K3State :=
  if g.N = 0 then none
  else if k > 256 then none
  else if countConfigs k g.N = 0 then none
  else
    let cfgs := generateCopConfigs g.N k
    let trans := buildTransitions3 g cfgs
    let p := k3Init g cfgs
    k3Loop g trans (2 * (cfgs.length * g.N) + 1) p.1 p.2

/-- The "paw" graph: triangle `1 - 2 - 3` with pendant vertex `0`
attached to `1`.  Vertex `1` has the maximal degree 3, so its
adjacency row is full and the sentinel scans of `k_cops_3.cpp`
overrun into the next row. -/
def pawG : CRGraph :=
  ⟨4, fun i j => decide ((i, j) ∈
    [(1, 0), (0, 1), (1, 2), (2, 1), (1, 3), (3, 1), (2, 3), (3, 2)])⟩

/-! ## The frontier-driven solver (`k_cops_4.cpp`), sequential model

The level-synchronous waves are modelled single-threaded: entries of
the current frontier are processed in order and local next-frontiers
merge into one appended list.  The atomic claim primitives
(`exchange(1)` returning the old value, `fetch_sub(1)` returning the
old value) become read-then-write on the threaded state. -/
/-- `exchange(1)` on `copTurnWins[ps]` (MAGIC TRICK 1): set the flag,
enqueue if this was the `0 → 1` transition. -/
def k4CopClaim (acc : K3State × List Nat) (ps : Nat) : K3State × List Nat :=
  let st := acc.1
  let old := st.cop.getD ps 0
  let st1 : K3State := { st with cop := st.cop.set ps 1 }
  if old = 0 then (st1, acc.2 ++ [ps]) else (st1, acc.2)

/-- `fetch_sub(1)` on `robberSafeMoves[ps]` (MAGIC TRICK 2): unguarded
wrap-around decrement; the caller seeing old value `1` sets
`robberTurnWins` and enqueues the robber-turn entry. -/
def k4Dec (acc : K3State × List Nat) (ps : Nat) : K3State × List Nat :=
  let st := acc.1
  let old := st.safe.getD ps 0
  let st1 : K3State := { st with safe := st.safe.set ps ((old + 255) % 256) }
  if old = 1 then ({ st1 with rob := st1.rob.set ps 1 }, acc.2 ++ [ps + ROBBIT])
  else (st1, acc.2)

/-- One frontier entry of the `k_cops_4.cpp` worker: a robber-turn
entry claims every CSR predecessor for the cops; a cop-turn entry
decrements the robber's safe moves at the stay position and at every
scanned neighbour. -/
def k4Entry (g : CRGraph) (trans : List (List Nat)) (acc : K3State × List Nat)
    (pk : Nat) : K3State × List Nat :=
  let s := pk % ROBBIT
  let cId := s / g.N
  let r := s % g.N
  if ROBBIT ≤ pk then
    (trans.getD cId []).foldl (fun a t => k4CopClaim a ((t + r) % 2 ^ 64)) acc
  else
    (edgeScan g r).foldl (fun a u => k4Dec a (cId * g.N + u))
      (k4Dec acc (cId * g.N + r))

/-- One wave: process the whole frontier, collecting the next one. -/
def k4Wave (g : CRGraph) (trans : List (List Nat)) (p : K3State × List Nat) :
    K3State × List Nat :=
  p.2.foldl (k4Entry g trans) (p.1, [])

/-- `k_cops_4.cpp` after initialization and `n` waves
(`initializeCaptures` is the same code as in `k_cops_3.cpp`; running a
wave on an empty frontier is a no-op, matching loop exit). -/
def k4Run (g : CRGraph) (k n : Nat) : K3State × List Nat :=
  (k4Wave g (buildTransitions3 g (generateCopConfigs g.N k)))^[n]
    (k3Init g (generateCopConfigs g.N k))

/-! ## The bit-packed frontier solver (`k_cops_5.cpp`), sequential model

One `uint8_t` per state: bit 0 is `copWin`, bits 1–7 the safe-move
counter.  Transitions are rebuilt on the fly during robber-turn
processing. -/
/-- `fetch_or(COP_WIN_BIT)` on the packed byte. -/
def k5CopClaim (acc : List Nat × List Nat) (ps : Nat) : List Nat × List Nat :=
  let b := acc.1.getD ps 0
  let b1 := if b % 2 = 1 then b else b + 1
  if b % 2 = 0 then (acc.1.set ps b1, acc.2 ++ [ps]) else (acc.1.set ps b1, acc.2)

/-- `fetch_sub(1 << SAFE_MOVES_SHIFT)` on the packed byte; enqueue
when the old safe-moves field was `1`. -/
def k5Dec (acc : List Nat × List Nat) (ps : Nat) : List Nat × List Nat :=
  let b := acc.1.getD ps 0
  let b1 := (b + 254) % 256
  if b / 2 = 1 then (acc.1.set ps b1, acc.2 ++ [ps + ROBBIT])
  else (acc.1.set ps b1, acc.2)

/-- One frontier entry of the `k_cops_5.cpp` worker: robber-turn
entries enumerate the cop-move Cartesian product on the fly, sort each
tuple, binary-search its id (skipping the not-found sentinel) and
claim the predecessor; cop-turn entries decrement as in V4. -/
def k5Entry (g : CRGraph) (cfgs : List (List Nat)) (acc : List Nat × List Nat)
    (pk : Nat) : List Nat × List Nat :=
  let s := pk % ROBBIT
  let cId := s / g.N
  let r := s % g.N
  if ROBBIT ≤ pk then
    (tuplesProd ((cfgs.getD cId []).map (fun u => u :: edgeScan g u))).foldl
      (fun a mv =>
        match bsearch cfgs (List.insertionSort (· ≤ ·) mv) with
        | some prev => k5CopClaim a (prev * g.N + r)
        | none => a) acc
  else
    (edgeScan g r).foldl (fun a u => k5Dec a (cId * g.N + u))
      (k5Dec acc (cId * g.N + r))

/-- `initializeCaptures` of `k_cops_5.cpp`: capture states get the
packed byte `COP_WIN_BIT`, others the robber degree shifted into the
safe-moves field (`uint8_t` arithmetic). -/
def k5InitBody (g : CRGraph) (cfgs : List (List Nat))
    (acc : List Nat × List Nat) (s : Nat) : List Nat × List Nat :=
  let cId := s / g.N
  let r := s % g.N
  if (cfgs.getD cId []).contains r then
    (acc.1.set s 1, acc.2 ++ [s, s + ROBBIT])
  else (acc.1.set s (robberDeg g r % 256 * 2 % 256), acc.2)

def k5Init (g : CRGraph) (cfgs : List (List Nat)) : List Nat × List Nat :=
  (List.range (cfgs.length * g.N)).foldl (k5InitBody g cfgs)
    (List.replicate (cfgs.length * g.N) 0, [])

def k5Wave (g : CRGraph) (cfgs : List (List Nat)) (p : List Nat × List Nat) :
    List Nat × List Nat :=
  p.2.foldl (k5Entry g cfgs) (p.1, [])

/-- `k_cops_5.cpp` after initialization and `n` waves. -/
def k5Run (g : CRGraph) (k n : Nat) : List Nat × List Nat :=
  (k5Wave g (generateCopConfigs g.N k))^[n] (k5Init g (generateCopConfigs g.N k))

/-- The number of closed neighbours of `(cId, r)` whose cop-turn state
is flagged as winning and whose frontier entry has already been
processed (flagged but not pending in `Q`): exactly the number of
safe-move decrements state `(cId, r)` has received. -/
def doneCnt (g : CRGraph) (st : K3State) (Q : List Nat) (cId r : Nat) : Nat :=
  ((r :: nbrs g r).filter
    (fun v => st.cop.getD (cId * g.N + v) 0 == 1 && !(Q.contains (cId * g.N + v)))).length

/-- The invariant maintained by `k_cops_4.cpp` between frontier waves
(on graphs whose sentinel scans are clean): array lengths; capture
flags; queue-entry soundness; queue distinctness; cop flags are
boolean; and the safe-counter accounting — a non-capture state's
counter is its robber degree minus the number of already-processed
winning closed neighbours (`doneCnt`), its robber flag set exactly at
zero, while a capture state's counter has wrapped to `-doneCnt`
modulo 256. -/
structure K4Inv (g : CRGraph) (cfgs : List (List Nat)) (st : K3State)
    (Q : List Nat) : Prop where
  lenc : st.cop.length = cfgs.length * g.N
  lenr : st.rob.length = cfgs.length * g.N
  lens : st.safe.length = cfgs.length * g.N
  ccop : ∀ s < cfgs.length * g.N, Caught g cfgs s → st.cop.getD s 0 = 1
  crob : ∀ s < cfgs.length * g.N, Caught g cfgs s → st.rob.getD s 0 = 1
  pcop : ∀ t ∈ Q, t < ROBBIT → st.cop.getD t 0 = 1 ∧ t < cfgs.length * g.N
  prb : ∀ t ∈ Q, ROBBIT ≤ t →
    st.rob.getD (t - ROBBIT) 0 = 1 ∧ t - ROBBIT < cfgs.length * g.N
  ndq : Q.Nodup
  cop01 : ∀ s, st.cop.getD s 0 = 0 ∨ st.cop.getD s 0 = 1
  snc : ∀ s < cfgs.length * g.N, ¬ Caught g cfgs s →
    st.safe.getD s 0 + doneCnt g st Q (s / g.N) (s % g.N) = robberDeg g (s % g.N)
  sc : ∀ s < cfgs.length * g.N, Caught g cfgs s →
    st.safe.getD s 0 = (256 - doneCnt g st Q (s / g.N) (s % g.N)) % 256
  riff : ∀ s < cfgs.length * g.N, ¬ Caught g cfgs s →
    (st.rob.getD s 0 = 1 ↔
      doneCnt g st Q (s / g.N) (s % g.N) = robberDeg g (s % g.N))

/-- Mid-fold variant of `K4Inv` while processing a cop-turn entry of
configuration `cId0`: the decrement targets listed in `vs` have been
accounted for in `doneCnt` (their cop entry left the queue) but their
counters have not yet been decremented. -/
structure MidInv (g : CRGraph) (cfgs : List (List Nat)) (cId0 : Nat)
    (vs : List Nat) (st : K3State) (Q : List Nat) : Prop where
  lenc : st.cop.length = cfgs.length * g.N
  lenr : st.rob.length = cfgs.length * g.N
  lens : st.safe.length = cfgs.length * g.N
  ccop : ∀ s < cfgs.length * g.N, Caught g cfgs s → st.cop.getD s 0 = 1
  crob : ∀ s < cfgs.length * g.N, Caught g cfgs s → st.rob.getD s 0 = 1
  pcop : ∀ t ∈ Q, t < ROBBIT → st.cop.getD t 0 = 1 ∧ t < cfgs.length * g.N
  prb : ∀ t ∈ Q, ROBBIT ≤ t →
    st.rob.getD (t - ROBBIT) 0 = 1 ∧ t - ROBBIT < cfgs.length * g.N
  ndq : Q.Nodup
  cop01 : ∀ s, st.cop.getD s 0 = 0 ∨ st.cop.getD s 0 = 1
  tnc : ∀ s < cfgs.length * g.N, s ∈ vs.map (fun u => cId0 * g.N + u) →
    ¬ Caught g cfgs s →
    st.rob.getD s 0 ≠ 1 ∧
    st.safe.getD s 0 + doneCnt g st Q (s / g.N) (s % g.N) =
      robberDeg g (s % g.N) + 1 ∧
    1 ≤ doneCnt g st Q (s / g.N) (s % g.N)
  tc : ∀ s < cfgs.length * g.N, s ∈ vs.map (fun u => cId0 * g.N + u) →
    Caught g cfgs s →
    st.safe.getD s 0 = (256 - (doneCnt g st Q (s / g.N) (s % g.N) - 1)) % 256 ∧
    1 ≤ doneCnt g st Q (s / g.N) (s % g.N)
  onc : ∀ s < cfgs.length * g.N, s ∉ vs.map (fun u => cId0 * g.N + u) →
    ¬ Caught g cfgs s →
    st.safe.getD s 0 + doneCnt g st Q (s / g.N) (s % g.N) =
      robberDeg g (s % g.N) ∧
    (st.rob.getD s 0 = 1 ↔
      doneCnt g st Q (s / g.N) (s % g.N) = robberDeg g (s % g.N))
  oc : ∀ s < cfgs.length * g.N, s ∉ vs.map (fun u => cId0 * g.N + u) →
    Caught g cfgs s →
    st.safe.getD s 0 = (256 - doneCnt g st Q (s / g.N) (s % g.N)) % 256

/-- Characterization of the initialization fold after processing the
first `m` states: flags are set exactly at the already-visited capture
states, counters hold the (truncated) robber degree elsewhere, and the
queue lists both turn entries of each visited capture state in
order. -/
def InitSpec (g : CRGraph) (cfgs : List (List Nat)) (m : Nat)
    (P : K3State × List Nat) : Prop :=
  P.1.cop.length = cfgs.length * g.N ∧
  P.1.rob.length = cfgs.length * g.N ∧
  P.1.safe.length = cfgs.length * g.N ∧
  (∀ s, P.1.cop.getD s 0 =
    if s < m ∧ (cfgs.getD (s / g.N) []).contains (s % g.N) = true then 1 else 0) ∧
  (∀ s, P.1.rob.getD s 0 =
    if s < m ∧ (cfgs.getD (s / g.N) []).contains (s % g.N) = true then 1 else 0) ∧
  (∀ s, P.1.safe.getD s 0 =
    if s < m ∧ ¬ (cfgs.getD (s / g.N) []).contains (s % g.N) = true then
      robberDeg g (s % g.N) % 256 else 0) ∧
  P.2 = ((List.range m).filter
    (fun s => (cfgs.getD (s / g.N) []).contains (s % g.N))).flatMap
    (fun s => [s, s + ROBBIT])

instance (g : CRGraph) (cfgs : List (List Nat)) (s : Nat) :
    Decidable (Caught g cfgs s) := by
  unfold Caught
  infer_instance

/-- A graph with clean sentinel scans: vertex `0` has the maximal
degree, but the following row (vertex `1`) is empty, so its leading
`255` terminates the spilling scan. -/
def starG4 : CRGraph :=
  ⟨4, fun i j => decide ((i, j) ∈ [(0, 2), (2, 0), (0, 3), (3, 0)])⟩

/-! ## The depth-tracking solver (`k_cops_rounds.cpp`) -/
/-- State tables of `k_cops_rounds.cpp`: win flags plus the
`stepsToWin` array of C `int`s (initialized to `-1`). -/
structure RState where
  cop : List Nat
  rob : List Nat
  steps : List Int

/-- Initialization: captures get both flags and `stepsToWin = 0`. -/
def roundsInit (g : CRGraph) (cfgs : List (List Nat)) : RState :=
  (List.range (cfgs.length * g.N)).foldl
    (fun st s =>
      if (cfgs.getD (s / g.N) []).contains (s % g.N) then
        ⟨st.cop.set s 1, st.rob.set s 1, st.steps.set s 0⟩
      else st)
    ⟨List.replicate (cfgs.length * g.N) 0, List.replicate (cfgs.length * g.N) 0,
      List.replicate (cfgs.length * g.N) (-1)⟩

/-- The collection phase of one synchronous pass: walk all states
against the frozen tables `st`, recording the robber-turn losses
(surrounded via the sentinel scan) and the cop-turn wins (some CSR
successor is robber-losing) to apply later. -/
def roundsBody (g : CRGraph) (trans : List (List Nat)) (st : RState)
    (acc : List Nat × List Nat) (s : Nat) : List Nat × List Nat :=
  let cId := s / g.N
  let r := s % g.N
  if st.cop.getD s 0 ≠ 0 ∧ st.rob.getD s 0 ≠ 0 then acc
  else
    let racc :=
      if st.rob.getD s 0 = 0 then
        if st.cop.getD s 0 = 0 ∨ ∃ u ∈ edgeScan g r, st.cop.getD (cId * g.N + u) 0 = 0 then
          acc.1
        else acc.1 ++ [s]
      else acc.1
    let cacc :=
      if st.cop.getD s 0 = 0 then
        if ∃ t ∈ trans.getD cId [], st.rob.getD ((t + r) % 2 ^ 64) 0 ≠ 0 then
          acc.2 ++ [s]
        else acc.2
      else acc.2
    (racc, cacc)

/-- The conversive update: robber losses first, then cop wins; a
`0 → 1` cop transition records `stepsToWin = (passes + 1) / 2`. -/
def roundsApply (passes : Nat) (st : RState) (ra ca : List Nat) :
    RState × Bool :=
  let p1 := ra.foldl (fun (q : RState × Bool) s =>
    if q.1.rob.getD s 0 = 0 then (⟨q.1.cop, q.1.rob.set s 1, q.1.steps⟩, true)
    else q) (st, false)
  ca.foldl (fun (q : RState × Bool) s =>
    if q.1.cop.getD s 0 = 0 then
      (⟨q.1.cop.set s 1, q.1.rob,
        q.1.steps.set s (((passes + 1) / 2 : Nat) : Int)⟩, true)
    else q) p1

def roundsPass (g : CRGraph) (cfgs trans : List (List Nat)) (st : RState)
    (passes : Nat) : RState × Bool :=
  let col := (List.range (cfgs.length * g.N)).foldl (roundsBody g trans st) ([], [])
  roundsApply passes st col.1 col.2

/-- The `while (changed)` loop; fuel is a modelling artifact. -/
def roundsLoop (g : CRGraph) (cfgs trans : List (List Nat)) :
    Nat → RState → Nat → Option RState
  | 0, _, _ => none
  | fuel + 1, st, passes =>
    let p := roundsPass g cfgs trans st (passes + 1)
    if p.2 then roundsLoop g cfgs trans fuel p.1 (passes + 1)
    else some p.1

/-- `solveCopsAndRobbers` of `k_cops_rounds.cpp` up to the end of the
minimax loop (`none` models the `N = 0` early return, the `k > 256`
rejection, and fuel exhaustion). -/
def solveRounds (g : CRGraph) (k : Nat) : Option RState :=
  if g.N = 0 then none
  else if k > 256 then none
  else
    let cfgs := generateCopConfigs g.N k
    let trans := buildTransitions3 g cfgs
    roundsLoop g cfgs trans (2 * (cfgs.length * g.N) + 2) (roundsInit g cfgs) 0

/-- Modelled from the spec: the closed neighbourhood `N⁺(r)` of the
robber vertex in the true graph. -/
def specNplus (g : CRGraph) (r : Nat) : List Nat := r :: nbrs g r

/-- Modelled from the spec: `transitions(C)` — the set of configuration
ids reachable by simultaneous cop moves within closed true
neighbourhoods, each sorted and resolved to its id. -/
def specTransitions (g : CRGraph) (cfgs : List (List Nat)) (c : List Nat) :
    List Nat :=
  sortDedup ((tuplesProd (c.map (fun u => u :: nbrs g u))).map
    (fun mv => (bsearch cfgs (List.insertionSort (· ≤ ·) mv)).getD (2 ^ 64 - 1)))

/-- Modelled from the spec: the robber-turn depth — `0` on capture,
else the maximum recorded depth over the cop-winning closed
neighbours of `r`. -/
def specRobDepth (g : CRGraph) (cfgs : List (List Nat)) (st : RState)
    (nc r : Nat) : Int :=
  if (cfgs.getD nc []).contains r then 0
  else (((specNplus g r).filter
      (fun v => st.cop.getD (nc * g.N + v) 0 == 1)).map
      (fun v => st.steps.getD (nc * g.N + v) (-1))).foldl max 0

/-- Minimum of a list of candidate depths (`none` when no successor
qualifies — the spec leaves that case undefined). -/
def intMinList : List Int → Option Int
  | [] => none
  | a :: t => some (t.foldl min a)

/-- The graph `GB`: `N = 5`, edges `{1-0, 1-2, 1-3, 2-4}`.  Vertex `1`
has the maximal degree `3`, so its adjacency row is full and every
sentinel scan of it spills into the next row. -/
def graphB : CRGraph :=
  ⟨5, fun i j =>
    decide ((i, j) ∈ [(1, 0), (0, 1), (1, 2), (2, 1), (1, 3), (3, 1),
      (2, 4), (4, 2)])⟩

/-! ## Rejection gates, the CLI entry point, and the file constructor -/
/-- The rejection gate of `solveCopsAndRobbers` in `k_cops_5.cpp`:
`true` when the solver returns before any state allocation — the
`N = 0` early return, the `k > MAX_COPS = 256` failsafe inside
`generateCopConfigs` (`nullptr`), or a zero precomputed count. -/
def solve5Rejects (N k : Nat) : Bool :=
  N == 0 || decide (256 < k) || countConfigs k N == 0

/-- `solveCopsAndRobbers` of `k_cops_4.cpp`: the same rejection gate
as `k_cops_3.cpp`, then `n` waves of the frontier loop. -/
def solveK4 (g : CRGraph) (k n : Nat) : Option (K3State × List Nat) :=
  if g.N = 0 then none
  else if k > 256 then none
  else if countConfigs k g.N = 0 then none
  else some (k4Run g k n)

/-- `Graph::Graph(const char*)` (`Graph.cpp`): opens and reads the
file bytes into a local string, but never parses them; every member
keeps its default, so `nodeCount = 0` and the adjacency matrix stays
null whatever the file holds. -/
def Graph_fromFile (file : List Nat) : CRGraph :=
  ⟨0, fun _ _ => false⟩

/-- Whitespace as `std::isspace` sees it in the default locale: the
space byte and the control characters `\t` `\n` `\v` `\f` `\r`. -/
def isSpaceB (c : Nat) : Bool := c == 32 || (9 ≤ c && c ≤ 13)

/-- An ASCII decimal digit byte. -/
def isDigitB (c : Nat) : Bool := 48 ≤ c && c ≤ 57

/-- The digit run `strtol` consumes and its exact numeric value;
`none` when the run is empty ("no conversion"). -/
def stoiDigits (t : List Nat) : Option Nat :=
  let ds := t.takeWhile isDigitB
  if ds.isEmpty then none else some (ds.foldl (fun a c => a * 10 + (c - 48)) 0)

/-- `std::stoi` on the argument bytes: skip leading whitespace, read
an optional sign and a digit run, and range-check against `int`.
`none` models the thrown `std::invalid_argument` (no digits) or
`std::out_of_range` (value outside `int`); `main` catches neither, so
the exception escapes and the process terminates abnormally. -/
def stoi (s : List Nat) : Option Int :=
  let s1 := s.dropWhile isSpaceB
  match s1 with
  | 45 :: t =>
    match stoiDigits t with
    | none => none
    | some v => if 2147483648 < v then none else some (-(v : Int))
  | 43 :: t =>
    match stoiDigits t with
    | none => none
    | some v => if 2147483647 < v then none else some v
  | t =>
    match stoiDigits t with
    | none => none
    | some v => if 2147483647 < v then none else some v

/-- `main` of `k_cops_5.cpp` over the raw argument byte strings: an
argument count other than `3` exits `1`; otherwise `std::stoi(argv[2])`
either throws — uncaught, so the process terminates abnormally,
modelled `none` — or yields the `int` cop count; the graph is
constructed from the file (never parsed, hence empty), the solver runs
for its side effects with the count converted to `uint32_t`, and `0`
is returned unconditionally. -/
def mainExit5 (args : List (List Nat)) : Option Nat :=
  if args.length ≠ 3 then some 1
  else
    match stoi (args.getD 2 []) with
    | none => none
    | some kI =>
      let g := Graph_fromFile (args.getD 1 [])
      let _ := solve5Rejects g.N (kI.emod (2 ^ 32)).toNat
      some 0

/-! ## Properties of the lexicographic comparison -/
theorem lexLt_irrefl : ∀ l : List Nat, lexLt l l = false := by
  intro l
  induction l with
  | nil => rfl
  | cons a as ih => simp [lexLt, ih]

theorem lexLt_asymm : ∀ {a b : List Nat}, lexLt a b = true → lexLt b a = false := by
  intro a
  induction a with
  | nil => intro b h; cases b <;> simp [lexLt] at *
  | cons x as ih =>
    intro b h
    cases b with
    | nil => simp [lexLt] at h
    | cons y bs =>
      simp only [lexLt] at h ⊢
      rcases Nat.lt_trichotomy x y with hxy | hxy | hxy
      · simp [hxy, Nat.lt_asymm hxy, Nat.ne_of_lt hxy]
      · subst hxy
        simp only [Nat.lt_irrefl, if_false] at h ⊢
        exact ih h
      · simp [hxy, Nat.lt_asymm hxy] at h

theorem lexLt_trans : ∀ {a b c : List Nat},
    lexLt a b = true → lexLt b c = true → lexLt a c = true := by
  intro a
  induction a with
  | nil =>
    intro b c hab hbc
    cases b with
    | nil => simp [lexLt] at hab
    | cons y bs => cases c with
      | nil => simp [lexLt] at hbc
      | cons z cs => simp [lexLt]
  | cons x as ih =>
    intro b c hab hbc
    cases b with
    | nil => simp [lexLt] at hab
    | cons y bs =>
      cases c with
      | nil => simp [lexLt] at hbc
      | cons z cs =>
        simp only [lexLt] at hab hbc ⊢
        rcases Nat.lt_trichotomy x y with hxy | hxy | hxy
        · rcases Nat.lt_trichotomy y z with hyz | hyz | hyz
          · simp [Nat.lt_trans hxy hyz]
          · subst hyz; simp [hxy]
          · simp [hyz, Nat.lt_asymm hyz] at hbc
        · subst hxy
          simp only [Nat.lt_irrefl, if_false] at hab
          rcases Nat.lt_trichotomy x z with hyz | hyz | hyz
          · simp [hyz]
          · subst hyz
            simp only [Nat.lt_irrefl, if_false] at hbc ⊢
            exact ih hab hbc
          · simp [hyz, Nat.lt_asymm hyz] at hbc
        · simp [hxy, Nat.lt_asymm hxy] at hab

theorem lexLt_total : ∀ {a b : List Nat}, a.length = b.length → a ≠ b →
    lexLt a b = true ∨ lexLt b a = true := by
  intro a
  induction a with
  | nil => intro b hl hne; cases b with
    | nil => exact absurd rfl hne
    | cons y bs => simp at hl
  | cons x as ih =>
    intro b hl hne
    cases b with
    | nil => simp at hl
    | cons y bs =>
      rcases Nat.lt_trichotomy x y with hxy | hxy | hxy
      · left; simp [lexLt, hxy]
      · subst hxy
        have hne' : as ≠ bs := by intro h; exact hne (by rw [h])
        rcases ih (by simpa using hl) hne' with h | h
        · left; simp [lexLt, h]
        · right; simp [lexLt, h]
      · right; simp [lexLt, hxy]

theorem lexLt_append_same : ∀ (p u v : List Nat),
    lexLt (p ++ u) (p ++ v) = lexLt u v := by
  intro p u v
  induction p with
  | nil => rfl
  | cons a p ih => simp [lexLt, ih]

/-- A block of maximal entries is never lexicographically below a list
of entries that are all `≤ m` and not longer than the block. -/
theorem not_lexLt_replicate_left : ∀ (t : Nat) (u : List Nat), u.length ≤ t →
    (∀ y ∈ u, y ≤ m) → lexLt (List.replicate t m) u = false := by
  intro t
  induction t with
  | zero =>
    intro u hu _
    have : u = [] := List.eq_nil_of_length_eq_zero (Nat.le_zero.mp hu)
    subst this
    rfl
  | succ t ih =>
    intro u hlen hub
    cases u with
    | nil => rfl
    | cons y u =>
      have hy : y ≤ m := hub y (by simp)
      simp only [List.replicate_succ, lexLt]
      have h1 : ¬ m < y := Nat.not_lt.mpr hy
      simp only [h1, if_false]
      by_cases h2 : y < m
      · simp [h2]
      · simp only [h2, if_false]
        exact ih u (by simpa using hlen) (fun z hz => hub z (by simp [hz]))

/-- A list whose entries are all `≥ m` and whose length covers the
block is never lexicographically below `replicate t m`. -/
theorem not_lexLt_of_ge_replicate : ∀ (t : Nat) (u : List Nat), t ≤ u.length →
    (∀ y ∈ u, m ≤ y) → lexLt u (List.replicate t m) = false := by
  intro t
  induction t with
  | zero =>
    intro u _ _
    cases u <;> rfl
  | succ t ih =>
    intro u hlen hlb
    cases u with
    | nil => simp at hlen
    | cons y u =>
      have hy : m ≤ y := hlb y (by simp)
      simp only [List.replicate_succ, lexLt]
      have h1 : ¬ y < m := Nat.not_lt.mpr hy
      simp only [h1, if_false]
      by_cases h2 : m < y
      · simp [h2]
      · simp only [h2, if_false]
        exact ih u (by simpa using hlen) (fun z hz => hlb z (by simp [hz]))

/-! ## The odometer successor -/
/-- Every tuple is either entirely `N - 1` entries or splits as
`a ++ x :: replicate t (N-1)` around the rightmost entry `x ≠ N - 1`. -/
theorem config_decomposition (N : Nat) : ∀ (c : List Nat),
    c = List.replicate c.length (N - 1) ∨
    ∃ a x t, c = a ++ x :: List.replicate t (N - 1) ∧ x ≠ N - 1 := by
  intro c
  induction c with
  | nil => left; rfl
  | cons a0 c ih =>
    rcases ih with h | ⟨a, x, t, hc, hx⟩
    · by_cases ha : a0 = N - 1
      · left; subst ha; simp [List.replicate_succ]; exact h
      · right; exact ⟨[], a0, c.length, by simp [h.symm ▸ h, ← h], ha⟩
    · right; exact ⟨a0 :: a, x, t, by simp [hc], hx⟩

theorem nextRev_replicate (N : Nat) : ∀ t,
    nextRev N (List.replicate t (N - 1)) = none := by
  intro t
  induction t with
  | zero => rfl
  | succ t ih => simp [List.replicate_succ, nextRev, ih]

theorem nextRev_split (N : Nat) (x : Nat) (hx : x ≠ N - 1) : ∀ (t : Nat) (r : List Nat),
    nextRev N (List.replicate t (N - 1) ++ x :: r) =
      some (List.replicate (t + 1) (x + 1) ++ r) := by
  intro t
  induction t with
  | zero => intro r; simp [nextRev, hx]
  | succ t ih =>
    intro r
    have hr : List.replicate (t + 1) (N - 1) ++ x :: r =
        (N - 1) :: (List.replicate t (N - 1) ++ x :: r) := by
      simp [List.replicate_succ]
    rw [hr]
    simp only [nextRev, if_pos rfl, ih r]
    simp [List.replicate_succ]

theorem nextConfig_replicate (N k : Nat) :
    nextConfig N (List.replicate k (N - 1)) = none := by
  simp [nextConfig, List.reverse_replicate, nextRev_replicate]

theorem nextConfig_split (N : Nat) (a : List Nat) (x t : Nat) (hx : x ≠ N - 1) :
    nextConfig N (a ++ x :: List.replicate t (N - 1)) =
      some (a ++ (x + 1) :: List.replicate t (x + 1)) := by
  have h1 : (a ++ x :: List.replicate t (N - 1)).reverse =
      List.replicate t (N - 1) ++ x :: a.reverse := by
    simp [List.reverse_append, List.reverse_replicate]
  rw [nextConfig, h1, nextRev_split N x hx t a.reverse]
  simp [List.reverse_append, List.reverse_replicate, List.replicate_succ,
    ← List.replicate_succ']

/-! ## Validity and ordering of the successor -/
theorem succ_validTuple {N k : Nat} {a : List Nat} {x t : Nat}
    (hv : validTuple N k (a ++ x :: List.replicate t (N - 1)))
    (hx : x ≠ N - 1) :
    validTuple N k (a ++ (x + 1) :: List.replicate t (x + 1)) := by
  obtain ⟨hlen, hub, hsort⟩ := hv
  have hxN : x < N := hub x (by simp)
  have hx1 : x + 1 < N := by omega
  refine ⟨by simpa using hlen, ?_, ?_⟩
  · intro y hy
    simp only [List.mem_append, List.mem_cons, List.mem_replicate] at hy
    rcases hy with hy | hy | hy
    · exact hub y (by simp [hy])
    · omega
    · omega
  · rw [List.pairwise_append] at hsort ⊢
    refine ⟨hsort.1, ?_, ?_⟩
    · constructor
      · intro y hy
        simp only [List.mem_replicate] at hy
        omega
      · exact List.pairwise_replicate.mpr (Or.inr (Nat.le_refl _))
    · intro y hy z hz
      have := hsort.2.2 y hy x (by simp)
      simp only [List.mem_cons, List.mem_replicate] at hz
      rcases hz with hz | hz <;> omega

theorem lexLt_succ_config (N : Nat) (a : List Nat) (x t : Nat) :
    lexLt (a ++ x :: List.replicate t (N - 1)) (a ++ (x + 1) :: List.replicate t (x + 1)) = true := by
  rw [lexLt_append_same]
  simp [lexLt, Nat.lt_succ_self]

/-- The odometer successor is the immediate lexicographic successor:
no valid tuple lies strictly between a tuple and its successor. -/
theorem succ_immediate {N : Nat} (hN : 1 ≤ N) :
    ∀ (a : List Nat) (x t : Nat) (d : List Nat),
    x ≠ N - 1 →
    d.length = (a ++ x :: List.replicate t (N - 1)).length →
    (∀ y ∈ d, y < N) → d.Pairwise (· ≤ ·) →
    lexLt (a ++ x :: List.replicate t (N - 1)) d = true →
    lexLt d (a ++ (x + 1) :: List.replicate t (x + 1)) = false := by
  intro a
  induction a with
  | nil =>
    intro x t d hx hlen hub hsort hlt
    cases d with
    | nil => simp at hlen
    | cons d0 d1 =>
      simp only [List.nil_append, List.length_cons, List.length_replicate] at hlen
      simp only [List.nil_append, lexLt] at hlt ⊢
      rcases Nat.lt_trichotomy x d0 with hxd | hxd | hxd
      · have h1 : ¬ d0 < x + 1 := by omega
        simp only [h1, if_false]
        by_cases h2 : x + 1 < d0
        · simp [h2]
        · simp only [h2, if_false]
          have hd0 : d0 = x + 1 := by omega
          exact not_lexLt_of_ge_replicate t d1 (by omega)
            (fun z hz => by
              have := List.rel_of_pairwise_cons hsort hz
              omega)
      · subst hxd
        simp only [Nat.lt_irrefl, if_false] at hlt
        have : lexLt (List.replicate t (N - 1)) d1 = false :=
          not_lexLt_replicate_left t d1 (by omega)
            (fun z hz => by have := hub z (by simp [hz]); omega)
        rw [this] at hlt
        exact absurd hlt (by simp)
      · simp [Nat.lt_asymm hxd, hxd] at hlt
  | cons a0 a' ih =>
    intro x t d hx hlen hub hsort hlt
    cases d with
    | nil => simp at hlen
    | cons d0 d1 =>
      simp only [List.cons_append, lexLt] at hlt ⊢
      rcases Nat.lt_trichotomy a0 d0 with had | had | had
      · simp [had, Nat.lt_asymm had]
      · subst had
        simp only [Nat.lt_irrefl, if_false] at hlt ⊢
        exact ih x t d1 hx (by simpa using hlen)
          (fun z hz => hub z (by simp [hz])) (List.Pairwise.of_cons hsort) hlt
      · simp [had, Nat.lt_asymm had] at hlt

/-! ## The recursive enumeration: membership, order, length -/
theorem mem_range'_iff {m s n : Nat} : m ∈ List.range' s n ↔ s ≤ m ∧ m < s + n := by
  rw [List.mem_range']
  constructor
  · rintro ⟨i, hi, rfl⟩; omega
  · rintro ⟨h1, h2⟩; exact ⟨m - s, by omega, by omega⟩

theorem mem_genConfigsRec (N : Nat) : ∀ (k v : Nat) (c : List Nat),
    c ∈ genConfigsRec N k v ↔
      c.length = k ∧ (∀ x ∈ c, v ≤ x ∧ x < N) ∧ c.Pairwise (· ≤ ·) := by
  intro k
  induction k with
  | zero =>
    intro v c
    simp only [genConfigsRec, List.mem_singleton]
    constructor
    · rintro rfl; simp
    · rintro ⟨hl, -, -⟩
      exact List.eq_nil_of_length_eq_zero hl
  | succ k ih =>
    intro v c
    simp only [genConfigsRec, List.mem_flatMap, List.mem_map, mem_range'_iff]
    constructor
    · rintro ⟨i, ⟨hvi, hiN⟩, t, ht, rfl⟩
      obtain ⟨hl, hmem, hsort⟩ := (ih i t).mp ht
      refine ⟨by simp [hl], ?_, ?_⟩
      · intro x hx
        rcases List.mem_cons.mp hx with rfl | hx
        · omega
        · have := hmem x hx; omega
      · exact List.pairwise_cons.mpr ⟨fun y hy => (hmem y hy).1, hsort⟩
    · rintro ⟨hl, hmem, hsort⟩
      cases c with
      | nil => simp at hl
      | cons x t =>
        have hx := hmem x (by simp)
        refine ⟨x, ⟨hx.1, by omega⟩, ?_⟩
        refine ⟨t, ?_, rfl⟩
        refine (ih x t).mpr ⟨by simpa using hl, ?_, (List.pairwise_cons.mp hsort).2⟩
        intro y hy
        exact ⟨(List.pairwise_cons.mp hsort).1 y hy, (hmem y (by simp [hy])).2⟩

/-- Pairwise property of a `flatMap`: blocks are internally pairwise
and pairwise-related across blocks. -/
theorem pairwise_flatMap {α β : Type} {R : β → β → Prop} {f : α → List β} :
    ∀ {l : List α}, (∀ a ∈ l, (f a).Pairwise R) →
    l.Pairwise (fun a b => ∀ x ∈ f a, ∀ y ∈ f b, R x y) →
    (l.flatMap f).Pairwise R := by
  intro l
  induction l with
  | nil => intro _ _; simp
  | cons a l ih =>
    intro hin hcross
    rw [List.flatMap_cons, List.pairwise_append]
    obtain ⟨hcr, hrest⟩ := List.pairwise_cons.mp hcross
    refine ⟨hin a (by simp), ih (fun b hb => hin b (by simp [hb])) hrest, ?_⟩
    intro x hx y hy
    obtain ⟨b, hb, hyb⟩ := List.mem_flatMap.mp hy
    exact hcr b hb x hx y hyb

theorem pairwise_lt_range' : ∀ (n s : Nat), (List.range' s n).Pairwise (· < ·) := by
  intro n
  induction n with
  | zero => intro s; simp
  | succ n ih =>
    intro s
    rw [List.range'_succ]
    refine List.pairwise_cons.mpr ⟨?_, ih (s + 1)⟩
    intro y hy
    have := (List.mem_range'_1.mp hy).1
    omega

theorem sorted_genConfigsRec (N : Nat) : ∀ (k v : Nat),
    (genConfigsRec N k v).Pairwise (fun c d => lexLt c d = true) := by
  intro k
  induction k with
  | zero => intro v; simp [genConfigsRec]
  | succ k ih =>
    intro v
    refine pairwise_flatMap ?_ ?_
    · intro i _
      exact (ih i).map _ (fun c d h => by simpa [lexLt] using h)
    · refine (pairwise_lt_range' (N - v) v).imp ?_
      intro i j hij x hx y hy
      obtain ⟨c, -, rfl⟩ := List.mem_map.mp hx
      obtain ⟨d, -, rfl⟩ := List.mem_map.mp hy
      simp [lexLt, hij]

theorem nodup_genConfigsRec (N k v : Nat) : (genConfigsRec N k v).Nodup := by
  refine (sorted_genConfigsRec N k v).imp ?_
  intro c d h
  intro hcd
  subst hcd
  rw [lexLt_irrefl] at h
  exact absurd h (by simp)

theorem length_genConfigsRec (N : Nat) : ∀ (k v : Nat),
    (genConfigsRec N k v).length = (N - v + k - 1).choose k := by
  intro k
  induction k with
  | zero => intro v; simp [genConfigsRec]
  | succ k ih =>
    have H : ∀ (n v : Nat), N - v = n →
        (genConfigsRec N (k + 1) v).length = (N - v + (k + 1) - 1).choose (k + 1) := by
      intro n
      induction n with
      | zero =>
        intro v hv
        simp only [genConfigsRec, hv, List.range'_zero, List.flatMap_nil, List.length_nil]
        rw [Nat.choose_eq_zero_of_lt (by omega)]
      | succ n ihn =>
        intro v hv
        have hvN : v < N := by omega
        have hsplit : List.range' v (N - v) = v :: List.range' (v + 1) (N - (v + 1)) := by
          have h2 : N - (v + 1) = n := by omega
          rw [hv, h2, List.range'_succ]
        simp only [genConfigsRec] at ihn ⊢
        rw [hsplit, List.flatMap_cons, List.length_append, List.length_map, ih v,
          ihn (v + 1) (by omega)]
        have h1 : N - v + (k + 1) - 1 = (N - (v + 1) + (k + 1) - 1) + 1 := by omega
        have h2 : N - v + k - 1 = N - (v + 1) + (k + 1) - 1 := by omega
        rw [h1, h2, Nat.choose_succ_succ]
    intro v
    exact H (N - v) v rfl

theorem length_allLists (N : Nat) : ∀ k, (allLists N k).length = N ^ k := by
  intro k
  induction k with
  | zero => rfl
  | succ k ih =>
    simp only [allLists, List.length_flatMap]
    have hmap : List.map (List.length ∘ fun i => List.map (fun t => i :: t) (allLists N k))
        (List.range N) = List.replicate N (N ^ k) := by
      rw [List.eq_replicate_iff]
      refine ⟨by simp, ?_⟩
      intro b hb
      obtain ⟨i, -, rfl⟩ := List.mem_map.mp hb
      simp [ih]
    rw [hmap]
    simp [Nat.pow_succ, Nat.mul_comm]

theorem mem_allLists (N : Nat) : ∀ (k : Nat) (c : List Nat),
    c.length = k → (∀ x ∈ c, x < N) → c ∈ allLists N k := by
  intro k
  induction k with
  | zero => intro c hl _; simp [allLists, List.eq_nil_of_length_eq_zero hl]
  | succ k ih =>
    intro c hl hub
    cases c with
    | nil => simp at hl
    | cons x t =>
      simp only [allLists, List.mem_flatMap, List.mem_map, List.mem_range]
      exact ⟨x, hub x (by simp),
        t, ih t (by simpa using hl) (fun y hy => hub y (by simp [hy])), rfl⟩

theorem length_le_pow {N k : Nat} {l : List (List Nat)} (hnd : l.Nodup)
    (h : ∀ c ∈ l, c.length = k ∧ ∀ x ∈ c, x < N) : l.length ≤ N ^ k := by
  rw [← length_allLists N k]
  refine List.Subperm.length_le (List.subperm_of_subset hnd ?_)
  intro c hc
  exact mem_allLists N k c (h c hc).1 (h c hc).2

/-! ## The iterative generator agrees with the recursive one -/
/-- Two strictly-sorted lists with the same members are equal. -/
theorem eq_of_sorted_of_mem_iff :
    ∀ {l1 l2 : List (List Nat)},
    l1.Pairwise (fun c d => lexLt c d = true) →
    l2.Pairwise (fun c d => lexLt c d = true) →
    (∀ x, x ∈ l1 ↔ x ∈ l2) → l1 = l2 := by
  intro l1
  induction l1 with
  | nil =>
    intro l2 _ _ hmem
    cases l2 with
    | nil => rfl
    | cons y t2 => exact absurd ((hmem y).mpr (by simp)) (by simp)
  | cons x t1 ih =>
    intro l2 h1 h2 hmem
    cases l2 with
    | nil => exact absurd ((hmem x).mp (by simp)) (by simp)
    | cons y t2 =>
      have hxy : x = y := by
        rcases List.mem_cons.mp ((hmem x).mp (by simp)) with h | h
        · exact h
        · rcases List.mem_cons.mp ((hmem y).mpr (by simp)) with h' | h'
          · exact h'.symm
          · have hyx := (List.pairwise_cons.mp h1).1 y h'
            have hxy := (List.pairwise_cons.mp h2).1 x h
            rw [lexLt_asymm hxy] at hyx
            exact absurd hyx (by simp)
      subst hxy
      have htail : ∀ z, z ∈ t1 ↔ z ∈ t2 := by
        intro z
        constructor
        · intro hz
          rcases List.mem_cons.mp ((hmem z).mp (by simp [hz])) with h | h
          · subst h
            have := (List.pairwise_cons.mp h1).1 z hz
            rw [lexLt_irrefl] at this
            exact absurd this (by simp)
          · exact h
        · intro hz
          rcases List.mem_cons.mp ((hmem z).mpr (by simp [hz])) with h | h
          · subst h
            have := (List.pairwise_cons.mp h2).1 z hz
            rw [lexLt_irrefl] at this
            exact absurd this (by simp)
          · exact h
      rw [ih (List.Pairwise.of_cons h1) (List.Pairwise.of_cons h2) htail]

/-- Peeling the minimum off a sorted filter: in a strictly sorted list
containing `c`, the elements `≥ c` are `c` followed by the elements
`> c`. -/
theorem filter_sorted_peel :
    ∀ {L : List (List Nat)}, L.Pairwise (fun c d => lexLt c d = true) →
    ∀ {c}, c ∈ L →
    L.filter (fun d => !lexLt d c) = c :: L.filter (fun d => lexLt c d) := by
  intro L
  induction L with
  | nil => intro _ c hc; simp at hc
  | cons h t ih =>
    intro hs c hc
    rcases List.mem_cons.mp hc with rfl | hct
    · have hall : ∀ y ∈ t, lexLt c y = true := (List.pairwise_cons.mp hs).1
      have e1 : t.filter (fun d => !lexLt d c) = t := by
        rw [List.filter_eq_self]
        intro y hy
        rw [lexLt_asymm (hall y hy)]
        rfl
      have e2 : t.filter (fun d => lexLt c d) = t := by
        rw [List.filter_eq_self]
        intro y hy
        exact hall y hy
      rw [List.filter_cons, List.filter_cons, lexLt_irrefl, e1, e2]
      simp
    · have hhc : lexLt h c = true := (List.pairwise_cons.mp hs).1 c hct
      rw [List.filter_cons, List.filter_cons, hhc, lexLt_asymm hhc]
      simp only [Bool.not_true, if_neg (by simp : ¬ (false = true))]
      exact ih (List.Pairwise.of_cons hs) hct

/-- Elements strictly above `c` are exactly the elements `≥` its
odometer successor, among valid tuples. -/
theorem filter_gt_eq_filter_ge_succ {N k : Nat} (hN : 1 ≤ N)
    {a : List Nat} {x t : Nat} (hx : x ≠ N - 1)
    (hv : validTuple N k (a ++ x :: List.replicate t (N - 1))) :
    (genConfigsRec N k 0).filter (fun d => lexLt (a ++ x :: List.replicate t (N - 1)) d) =
    (genConfigsRec N k 0).filter (fun d => !lexLt d (a ++ (x + 1) :: List.replicate t (x + 1))) := by
  apply List.filter_congr
  intro d hd
  obtain ⟨hdl, hdm, hds⟩ := (mem_genConfigsRec N k 0 d).mp hd
  set c := a ++ x :: List.replicate t (N - 1) with hc
  set c' := a ++ (x + 1) :: List.replicate t (x + 1) with hc'
  have hdlen : d.length = c.length := by rw [hdl, hv.1]
  by_cases h : lexLt c d = true
  · rw [h]
    have := succ_immediate hN a x t d hx hdlen (fun y hy => (hdm y hy).2) hds h
    simp [this]
  · have h' : lexLt c d = false := by revert h; cases lexLt c d <;> simp
    rw [h']
    by_cases hdc : d = c
    · subst hdc
      have := lexLt_succ_config N a x t
      simp [← hc, ← hc'] at this ⊢
      simp [this]
    · rcases lexLt_total hdlen hdc with hlt | hlt
      · have : lexLt d c' = true := lexLt_trans hlt (lexLt_succ_config N a x t)
        simp [this]
      · rw [hlt] at h'; simp at h'

/-- The emission loop, started at any valid tuple `c` with enough
fuel, emits exactly the valid tuples `≥ c`, in order. -/
theorem genFrom_eq_filter {N k : Nat} (hN : 1 ≤ N) :
    ∀ (fuel : Nat) (c : List Nat), validTuple N k c →
    ((genConfigsRec N k 0).filter (fun d => !lexLt d c)).length ≤ fuel →
    genFrom N fuel c = (genConfigsRec N k 0).filter (fun d => !lexLt d c) := by
  intro fuel
  induction fuel with
  | zero =>
    intro c hv hlen
    have hc : c ∈ (genConfigsRec N k 0).filter (fun d => !lexLt d c) := by
      rw [List.mem_filter]
      refine ⟨(mem_genConfigsRec N k 0 c).mpr ⟨hv.1, fun y hy => ⟨Nat.zero_le y, hv.2.1 y hy⟩, hv.2.2⟩, ?_⟩
      simp [lexLt_irrefl]
    have := List.length_pos.mpr (List.ne_nil_of_mem hc)
    omega
  | succ fuel ih =>
    intro c hv hlen
    have hcmem : c ∈ genConfigsRec N k 0 :=
      (mem_genConfigsRec N k 0 c).mpr ⟨hv.1, fun y hy => ⟨Nat.zero_le y, hv.2.1 y hy⟩, hv.2.2⟩
    have hpeel := filter_sorted_peel (sorted_genConfigsRec N k 0) hcmem
    rcases config_decomposition N c with hdec | ⟨a, x, t, hdec, hx⟩
    · -- c is the maximal tuple: the loop stops after emitting it
      have hnone : nextConfig N c = none := by
        conv_lhs => rw [hdec]
        exact nextConfig_replicate N c.length
      have hstep : genFrom N (fuel + 1) c = [c] := by
        rw [genFrom, hnone]
      have hnil : (genConfigsRec N k 0).filter (fun d => lexLt c d) = [] := by
        rw [List.filter_eq_nil_iff]
        intro d hd
        obtain ⟨hdl, hdm, -⟩ := (mem_genConfigsRec N k 0 d).mp hd
        have hmax : lexLt (List.replicate c.length (N - 1)) d = false :=
          not_lexLt_replicate_left c.length d (by rw [hdl, hv.1])
            (fun z hz => by have := (hdm z hz).2; omega)
        rw [hdec]
        simp [hmax]
      rw [hstep, hpeel, hnil]
    · -- c has a successor: recurse
      subst hdec
      have hsome := nextConfig_split N a x t hx
      have hstep : genFrom N (fuel + 1) (a ++ x :: List.replicate t (N - 1)) =
          (a ++ x :: List.replicate t (N - 1)) ::
            genFrom N fuel (a ++ (x + 1) :: List.replicate t (x + 1)) := by
        rw [genFrom, hsome]
      have hv' := succ_validTuple hv hx
      have hgt := filter_gt_eq_filter_ge_succ hN hx hv
      rw [hpeel, hgt] at hlen
      rw [hstep, hpeel, hgt, ih _ hv' (by simpa using hlen)]

/-- With `N ≥ 1`, the iterative generator emits exactly the recursive
enumeration (hence all sorted tuples, in lexicographic order). -/
theorem generateCopConfigs_eq_rec {N : Nat} (hN : 1 ≤ N) (k : Nat) :
    generateCopConfigs N k = genConfigsRec N k 0 := by
  have hv0 : validTuple N k (List.replicate k 0) := by
    refine ⟨by simp, ?_, List.pairwise_replicate.mpr (Or.inr (Nat.le_refl 0))⟩
    intro x hx
    rw [List.eq_of_mem_replicate hx]
    omega
  have hfull : (genConfigsRec N k 0).filter (fun d => !lexLt d (List.replicate k 0)) =
      genConfigsRec N k 0 := by
    rw [List.filter_eq_self]
    intro d hd
    obtain ⟨hdl, hdm, -⟩ := (mem_genConfigsRec N k 0 d).mp hd
    have : lexLt d (List.replicate k 0) = false :=
      not_lexLt_of_ge_replicate k d (by omega) (fun z _ => Nat.zero_le z)
    simp [this]
  have hbound : (genConfigsRec N k 0).length ≤ N ^ k := by
    refine length_le_pow (nodup_genConfigsRec N k 0) ?_
    intro c hc
    obtain ⟨hl, hm, -⟩ := (mem_genConfigsRec N k 0 c).mp hc
    exact ⟨hl, fun x hx => (hm x hx).2⟩
  rw [generateCopConfigs, genFrom_eq_filter hN (N ^ k) (List.replicate k 0) hv0
    (by rw [hfull]; exact hbound), hfull]

/-! ## Properties of `generateCopConfigs` -/
theorem length_generateCopConfigs {N : Nat} (hN : 1 ≤ N) (k : Nat) :
    (generateCopConfigs N k).length = (N + k - 1).choose k := by
  rw [generateCopConfigs_eq_rec hN, length_genConfigsRec, Nat.sub_zero]

theorem mem_generateCopConfigs {N : Nat} (hN : 1 ≤ N) (k : Nat) (c : List Nat) :
    c ∈ generateCopConfigs N k ↔ validTuple N k c := by
  rw [generateCopConfigs_eq_rec hN, mem_genConfigsRec]
  unfold validTuple
  constructor
  · rintro ⟨h1, h2, h3⟩; exact ⟨h1, fun x hx => (h2 x hx).2, h3⟩
  · rintro ⟨h1, h2, h3⟩; exact ⟨h1, fun x hx => ⟨Nat.zero_le x, h2 x hx⟩, h3⟩

theorem sorted_generateCopConfigs {N : Nat} (hN : 1 ≤ N) (k : Nat) :
    (generateCopConfigs N k).Pairwise (fun c d => lexLt c d = true) := by
  rw [generateCopConfigs_eq_rec hN]
  exact sorted_genConfigsRec N k 0

theorem binomLoop_eq_choose {n : Nat} (kv : Nat) (hkv : kv ≤ n)
    (hov : ∀ i < kv, n.choose i * (n - i) < 2 ^ 64) :
    (List.range kv).foldl (fun res i => res * (n - i) % 2 ^ 64 / (i + 1)) 1 = n.choose kv := by
  induction kv with
  | zero => simp
  | succ j ih =>
    rw [List.range_succ, List.foldl_append,
      ih (by omega) (fun i hi => hov i (by omega))]
    simp only [List.foldl_cons, List.foldl_nil]
    rw [Nat.mod_eq_of_lt (hov j (by omega))]
    have hrec : n.choose j * (n - j) = n.choose (j + 1) * (j + 1) :=
      (Nat.choose_succ_right_eq n j).symm
    rw [hrec, Nat.mul_div_cancel _ (Nat.succ_pos j)]

theorem countConfigs_eq_choose {k N : Nat} (hN : 1 ≤ N) (hk : 1 ≤ k)
    (hov : countNoOverflow k N) :
    countConfigs k N = (N + k - 1).choose k := by
  unfold countConfigs
  set n := N + k - 1 with hn
  have hkn : k ≤ n := by omega
  by_cases hkeq : k = n
  · rw [if_neg (by omega), if_pos (by simp [hkeq])]
    rw [hkeq, Nat.choose_self]
  · have hklt : k < n := by omega
    rw [if_neg (by omega), if_neg (by simp; omega)]
    simp only
    by_cases hhalf : k > n / 2
    · rw [if_pos hhalf]
      have hkv : binKv k N = n - k := by rw [binKv, ← hn, if_pos hhalf]
      rw [binomLoop_eq_choose (n := n) (n - k) (by omega) (by rw [← hkv, hn]; exact hov)]
      exact Nat.choose_symm hkn
    · rw [if_neg hhalf]
      have hkv : binKv k N = k := by rw [binKv, ← hn, if_neg hhalf]
      exact binomLoop_eq_choose (n := n) k hkn (by rw [← hkv, hn]; exact hov)

/-- C4 (amended): for `1 ≤ N ≤ 255` and `1 ≤ k ≤ 256` the generator is
accepted and emits exactly `C(N+k-1, k)` configurations, each a
non-decreasing `k`-tuple over `{0..N-1}`, in strictly increasing
lexicographic order; the precomputed count (used to size the `M * k`
byte allocation) equals the number of tuples actually written whenever
the 64-bit multiplicative binomial loop does not overflow. -/
theorem C4_enumeration {N k : Nat}
    (hN1 : 1 ≤ N) (hN : N ≤ 255) (hk1 : 1 ≤ k) (hk : k ≤ 256) :
    ∃ cnt cfgs, generateCopConfigs5 k N = some (cnt, cfgs) ∧
      cfgs.length = (N + k - 1).choose k ∧
      (∀ c ∈ cfgs, validTuple N k c) ∧
      cfgs.Pairwise (fun c d => lexLt c d = true) ∧
      (countNoOverflow k N → cnt = cfgs.length) := by
  refine ⟨countConfigs k N, generateCopConfigs N k, ?_, ?_, ?_, ?_, ?_⟩
  · rw [generateCopConfigs5, if_neg (by omega)]
  · exact length_generateCopConfigs hN1 k
  · intro c hc
    exact (mem_generateCopConfigs hN1 k c).mp hc
  · exact sorted_generateCopConfigs hN1 k
  · intro hov
    rw [countConfigs_eq_choose hN1 hk1 hov, length_generateCopConfigs hN1 k]

theorem C4_enumeration_witness :
    ∃ cnt cfgs, generateCopConfigs5 2 3 = some (cnt, cfgs) ∧
      cfgs.length = (3 + 2 - 1).choose 2 ∧
      (∀ c ∈ cfgs, validTuple 3 2 c) ∧
      cfgs.Pairwise (fun c d => lexLt c d = true) ∧
      (countNoOverflow 2 3 → cnt = cfgs.length) :=
  C4_enumeration (by decide) (by decide) (by decide) (by decide)

/-- C4 counterexamples, one per restriction of the amendment.  First,
the claim quantifies over every `k ≥ 1`, but at `k = 257` (and
`N = 1`) the generator rejects the request (`nullptr`, zero
configurations emitted) even though `C(N+k-1, k) = C(257, 257) = 1`.
Second, the precomputed count does not always equal `C(N+k-1, k)`
even in range: at `k = 16`, `N = 255` the 64-bit multiplicative
binomial loop overflows and the wrapped count — the number used to
size the `M · k`-byte allocation — differs from `C(270, 16)`, the
number of tuples the emission loop writes, so the no-overflow proviso
cannot be dropped. -/
theorem C4_counterexample :
    (generateCopConfigs5 257 1 = none ∧ (1 + 257 - 1).choose 257 = 1) ∧
    (¬ countNoOverflow 16 255 ∧
      countConfigs 16 255 = 1141496245065196428 ∧
      countConfigs 16 255 ≠ (255 + 16 - 1).choose 16) := by
  refine ⟨⟨rfl, ?_⟩, by decide, by rfl, by decide⟩
  show (257).choose 257 = 1
  exact Nat.choose_self 257

theorem cmp3_eq_zero_iff : ∀ {a b : List Nat}, a.length = b.length →
    (cmp3 a b = 0 ↔ a = b) := by
  intro a
  induction a with
  | nil => intro b h; cases b <;> simp [cmp3] at *
  | cons x as ih =>
    intro b h
    cases b with
    | nil => simp at h
    | cons y bs =>
      simp only [cmp3]
      rcases Nat.lt_trichotomy x y with hxy | hxy | hxy
      · simp [hxy]
        omega
      · subst hxy
        simp only [Nat.lt_irrefl, if_false]
        rw [ih (by simpa using h)]
        simp
      · simp [hxy, Nat.lt_asymm hxy]
        omega

theorem cmp3_neg_iff : ∀ {a b : List Nat}, a.length = b.length →
    (cmp3 a b < 0 ↔ lexLt a b = true) := by
  intro a
  induction a with
  | nil => intro b h; cases b <;> simp [cmp3, lexLt] at *
  | cons x as ih =>
    intro b h
    cases b with
    | nil => simp at h
    | cons y bs =>
      simp only [cmp3, lexLt]
      rcases Nat.lt_trichotomy x y with hxy | hxy | hxy
      · simp [hxy]
      · subst hxy
        simp only [Nat.lt_irrefl, if_false]
        exact ih (by simpa using h)
      · simp [hxy, Nat.lt_asymm hxy]

theorem cmp3_pos_iff : ∀ {a b : List Nat}, a.length = b.length →
    (0 < cmp3 a b ↔ lexLt b a = true) := by
  intro a
  induction a with
  | nil => intro b h; cases b <;> simp [cmp3, lexLt] at *
  | cons x as ih =>
    intro b h
    cases b with
    | nil => simp at h
    | cons y bs =>
      simp only [cmp3, lexLt]
      rcases Nat.lt_trichotomy x y with hxy | hxy | hxy
      · simp [hxy, Nat.lt_asymm hxy]
      · subst hxy
        simp only [Nat.lt_irrefl, if_false]
        exact ih (by simpa using h)
      · simp [hxy, Nat.lt_asymm hxy]

theorem sorted_getD_lexLt {cfgs : List (List Nat)}
    (hs : cfgs.Pairwise (fun c d => lexLt c d = true))
    {i j : Nat} (hij : i < j) (hj : j < cfgs.length) :
    lexLt (cfgs.getD i []) (cfgs.getD j []) = true := by
  rw [List.getD_eq_getElem cfgs [] (by omega), List.getD_eq_getElem cfgs [] hj]
  exact List.pairwise_iff_getElem.mp hs i j (by omega) hj hij

theorem bsearchAux_finds {cfgs : List (List Nat)} {key : List Nat}
    (hs : cfgs.Pairwise (fun c d => lexLt c d = true))
    (hlens : ∀ c ∈ cfgs, c.length = key.length)
    (hsz : cfgs.length ≤ 2 ^ 64)
    {i : Nat} (hi : i < cfgs.length) (hkey : cfgs.getD i [] = key) :
    ∀ (fuel left right : Nat), left ≤ i → i ≤ right → right < cfgs.length →
    right - left < fuel →
    bsearchAux cfgs key fuel left right = some i := by
  intro fuel
  induction fuel with
  | zero => intro left right _ _ _ h; omega
  | succ fuel ih =>
    intro left right hli hir hrlen hfuel
    rw [bsearchAux, if_pos (by omega)]
    simp only
    set mid := left + (right - left) / 2 with hmid
    have hmid1 : left ≤ mid := by omega
    have hmid2 : mid ≤ right := by omega
    have hmlen : mid < cfgs.length := by omega
    have hckl : (cfgs.getD mid []).length = key.length := by
      refine hlens _ ?_
      rw [List.getD_eq_getElem cfgs [] hmlen]
      exact List.getElem_mem hmlen
    by_cases hc0 : cmp3 (cfgs.getD mid []) key = 0
    · rw [if_pos hc0]
      have hmeq : cfgs.getD mid [] = key := (cmp3_eq_zero_iff hckl).mp hc0
      have : mid = i := by
        rcases Nat.lt_trichotomy mid i with h | h | h
        · have := sorted_getD_lexLt hs h hi
          rw [hmeq, hkey, lexLt_irrefl] at this
          simp at this
        · exact h
        · have := sorted_getD_lexLt hs h hmlen
          rw [hmeq, hkey, lexLt_irrefl] at this
          simp at this
      rw [this]
    · rw [if_neg hc0]
      by_cases hcneg : cmp3 (cfgs.getD mid []) key < 0
      · rw [if_pos hcneg]
        have hlt : lexLt (cfgs.getD mid []) key = true := (cmp3_neg_iff hckl).mp hcneg
        have hmi : mid < i := by
          rcases Nat.lt_trichotomy mid i with h | h | h
          · exact h
          · subst h
            rw [hkey, lexLt_irrefl] at hlt
            simp at hlt
          · have := sorted_getD_lexLt hs h hmlen
            rw [hkey] at this
            rw [lexLt_asymm this] at hlt
            simp at hlt
        exact ih (mid + 1) right (by omega) hir hrlen (by omega)
      · rw [if_neg hcneg]
        have hcpos : 0 < cmp3 (cfgs.getD mid []) key := by omega
        have hlt : lexLt key (cfgs.getD mid []) = true := (cmp3_pos_iff hckl).mp hcpos
        have him : i < mid := by
          rcases Nat.lt_trichotomy i mid with h | h | h
          · exact h
          · subst h
            rw [hkey, lexLt_irrefl] at hlt
            simp at hlt
          · have := sorted_getD_lexLt hs h hi
            rw [hkey] at this
            rw [lexLt_asymm this] at hlt
            simp at hlt
        have hwrap : (mid + (2 ^ 64 - 1)) % 2 ^ 64 = mid - 1 := by
          have h1 : mid + (2 ^ 64 - 1) = (mid - 1) + 2 ^ 64 := by omega
          rw [h1, Nat.add_mod_right, Nat.mod_eq_of_lt (by omega)]
        rw [hwrap]
        exact ih left (mid - 1) (by omega) (by omega) (by omega) (by omega)

theorem bsearch_finds {cfgs : List (List Nat)} {key : List Nat}
    (hs : cfgs.Pairwise (fun c d => lexLt c d = true))
    (hlens : ∀ c ∈ cfgs, c.length = key.length)
    (hsz : cfgs.length ≤ 2 ^ 64)
    {i : Nat} (hi : i < cfgs.length) (hkey : cfgs.getD i [] = key) :
    bsearch cfgs key = some i :=
  bsearchAux_finds hs hlens hsz hi hkey (cfgs.length + 1) 0 (cfgs.length - 1)
    (by omega) (by omega) (by omega) (by omega)

/-- C5: for every sorted `k`-multiset `m` of vertices in `{0..N-1}`,
the binary search over the packed configuration array returns an id —
never the not-found sentinel — whose `k` bytes equal `m`; the id is
unique; and composed with the enumeration this is a round-trip
(looking up the bytes of configuration `j` returns `j`). -/
theorem C5_lookup {N k : Nat} (hN1 : 1 ≤ N) (hN : N ≤ 255)
    (hM : (N + k - 1).choose k ≤ 2 ^ 64)
    (m : List Nat) (hm : validTuple N k m) :
    ∃ i, bsearch (generateCopConfigs N k) m = some i ∧
      (generateCopConfigs N k).getD i [] = m ∧
      i < (generateCopConfigs N k).length ∧
      (∀ j < (generateCopConfigs N k).length,
        (generateCopConfigs N k).getD j [] = m → j = i) ∧
      (∀ j < (generateCopConfigs N k).length,
        bsearch (generateCopConfigs N k) ((generateCopConfigs N k).getD j []) = some j) := by
  have hsort := sorted_generateCopConfigs hN1 k
  have hlenc : (generateCopConfigs N k).length = (N + k - 1).choose k :=
    length_generateCopConfigs hN1 k
  have hmemlen : ∀ c ∈ generateCopConfigs N k, c.length = k := by
    intro c hc
    exact ((mem_generateCopConfigs hN1 k c).mp hc).1
  obtain ⟨i, hi, hgi⟩ := List.getElem_of_mem ((mem_generateCopConfigs hN1 k m).mpr hm)
  have hgdi : (generateCopConfigs N k).getD i [] = m := by
    rw [List.getD_eq_getElem (generateCopConfigs N k) [] hi]
    exact hgi
  refine ⟨i, ?_, hgdi, hi, ?_, ?_⟩
  · exact bsearch_finds hsort
      (fun c hc => by rw [hmemlen c hc, hm.1]) (by omega) hi hgdi
  · intro j hj hgj
    rcases Nat.lt_trichotomy j i with h | h | h
    · have := sorted_getD_lexLt hsort h hi
      rw [hgj, hgdi, lexLt_irrefl] at this
      simp at this
    · exact h
    · have := sorted_getD_lexLt hsort h hj
      rw [hgj, hgdi, lexLt_irrefl] at this
      simp at this
  · intro j hj
    have hmemj : (generateCopConfigs N k).getD j [] ∈ generateCopConfigs N k := by
      rw [List.getD_eq_getElem (generateCopConfigs N k) [] hj]
      exact List.getElem_mem hj
    exact bsearch_finds hsort
      (fun c hc => by rw [hmemlen c hc, hmemlen _ hmemj]) (by omega) hj rfl

theorem C5_lookup_witness :
    ∃ i, bsearch (generateCopConfigs 3 2) [1, 2] = some i ∧
      (generateCopConfigs 3 2).getD i [] = [1, 2] ∧
      i < (generateCopConfigs 3 2).length ∧
      (∀ j < (generateCopConfigs 3 2).length,
        (generateCopConfigs 3 2).getD j [] = [1, 2] → j = i) ∧
      (∀ j < (generateCopConfigs 3 2).length,
        bsearch (generateCopConfigs 3 2) ((generateCopConfigs 3 2).getD j []) = some j) :=
  C5_lookup (by decide) (by decide) (by decide) [1, 2] (by decide)

/-! ## Array-access helpers -/
theorem getD_set_self {α : Type} {l : List α} {s : Nat} {a d : α} (h : s < l.length) :
    (l.set s a).getD s d = a := by
  simp [List.getD_eq_getElem?_getD, List.getElem?_set_self h]

theorem getD_set_ne {α : Type} {l : List α} {s t : Nat} {a d : α} (h : s ≠ t) :
    (l.set s a).getD t d = l.getD t d := by
  simp [List.getD_eq_getElem?_getD, List.getElem?_set_ne h]

theorem getD_set_true {l : List Bool} {s t : Nat} (h : l.getD t false = true) :
    (l.set s true).getD t false = true := by
  by_cases hst : s = t
  · subst hst
    by_cases hl : s < l.length
    · rw [getD_set_self hl]
    · rw [List.set_eq_of_length_le (by omega)]
      exact h
  · rw [getD_set_ne hst]
    exact h

theorem scanRobSide_cop (g : CRGraph) (st : ScanState) (cId r s : Nat) :
    (scanRobSide g st cId r s).1.cop = st.cop := by
  unfold scanRobSide
  dsimp only
  split_ifs <;> rfl

theorem scanRobSide_rob_mono (g : CRGraph) (st : ScanState) (cId r s t : Nat)
    (h : st.rob.getD t false = true) :
    (scanRobSide g st cId r s).1.rob.getD t false = true := by
  unfold scanRobSide
  dsimp only
  split_ifs <;> first | exact h | exact getD_set_true h

theorem scanRobSide_rob_of_not_fired (g : CRGraph) (st : ScanState) (cId r s : Nat)
    (h : (scanRobSide g st cId r s).2 = false) :
    (scanRobSide g st cId r s).1.rob = st.rob := by
  unfold scanRobSide at *
  dsimp only at h ⊢
  split_ifs at h ⊢ <;> simp_all

theorem scanCopSide_rob (g : CRGraph) (trans : List (List Nat)) (st : ScanState)
    (cId r s : Nat) : (scanCopSide g trans st cId r s).1.rob = st.rob := by
  unfold scanCopSide
  split_ifs <;> rfl

theorem scanCopSide_cop_mono (g : CRGraph) (trans : List (List Nat)) (st : ScanState)
    (cId r s t : Nat) (h : st.cop.getD t false = true) :
    (scanCopSide g trans st cId r s).1.cop.getD t false = true := by
  unfold scanCopSide
  split_ifs <;> first | exact h | exact getD_set_true h

theorem scanCopSide_cop_of_not_fired (g : CRGraph) (trans : List (List Nat))
    (st : ScanState) (cId r s : Nat) (h : (scanCopSide g trans st cId r s).2 = false) :
    (scanCopSide g trans st cId r s).1.cop = st.cop := by
  unfold scanCopSide at *
  split_ifs at h ⊢ <;> simp_all

theorem scanCopSide_not_fired (g : CRGraph) (trans : List (List Nat))
    (st : ScanState) (cId r s : Nat) (h : (scanCopSide g trans st cId r s).2 = false) :
    st.cop.getD s false = true ∨
    (trans.getD cId []).any (fun nc => st.rob.getD (nc * g.N + r) false) = false := by
  unfold scanCopSide at h
  by_cases h1 : st.cop.getD s false = true
  · exact Or.inl h1
  · rw [if_neg h1] at h
    by_cases h2 : (trans.getD cId []).any (fun nc => st.rob.getD (nc * g.N + r) false) = true
    · rw [if_pos h2] at h
      simp at h
    · right
      simpa using h2

theorem scanCopSide_fired (g : CRGraph) (trans : List (List Nat))
    (st : ScanState) (cId r s : Nat) (h : (scanCopSide g trans st cId r s).2 = true) :
    (scanCopSide g trans st cId r s).1 = { st with cop := st.cop.set s true } ∧
    st.cop.getD s false = false ∧
    (trans.getD cId []).any (fun nc => st.rob.getD (nc * g.N + r) false) = true := by
  unfold scanCopSide at *
  by_cases h1 : st.cop.getD s false = true
  · rw [if_pos h1] at h
    simp at h
  · rw [if_neg h1] at h ⊢
    by_cases h2 : (trans.getD cId []).any (fun nc => st.rob.getD (nc * g.N + r) false) = true
    · rw [if_pos h2] at h ⊢
      exact ⟨rfl, by simpa using h1, h2⟩
    · rw [if_neg h2] at h
      simp at h

/-- Unfolding of the scan body with the skip condition as a
proposition. -/
theorem scanBody_eq (g : CRGraph) (cfgs trans : List (List Nat))
    (st : ScanState) (cnt s : Nat) :
    scanBody g cfgs trans (st, cnt) s =
      if st.cop.getD s false = true ∧ st.rob.getD s false = true then (st, cnt)
      else
        ((scanCopSide g trans (scanRobSide g st (s / g.N) (s % g.N) s).1
            (s / g.N) (s % g.N) s).1,
         cnt + (if (scanRobSide g st (s / g.N) (s % g.N) s).2 then 1 else 0)
             + (if (scanCopSide g trans (scanRobSide g st (s / g.N) (s % g.N) s).1
                     (s / g.N) (s % g.N) s).2 then 1 else 0)) := by
  unfold scanBody
  dsimp only
  by_cases h1 : st.cop.getD s false = true <;> by_cases h2 : st.rob.getD s false = true <;>
    simp [h1, h2]

/-- The scan body preserves justification of the cop flags. -/
theorem scanBody_jus (g : CRGraph) (cfgs trans : List (List Nat))
    (acc : ScanState × Nat) (s : Nat) (hJ : Jus g cfgs trans acc.1) :
    Jus g cfgs trans (scanBody g cfgs trans acc s).1 := by
  obtain ⟨st, cnt⟩ := acc
  rw [scanBody_eq]
  by_cases hskip : st.cop.getD s false = true ∧ st.rob.getD s false = true
  · rw [if_pos hskip]
    exact hJ
  · rw [if_neg hskip]
    set p1 := scanRobSide g st (s / g.N) (s % g.N) s with hp1
    set p2 := scanCopSide g trans p1.1 (s / g.N) (s % g.N) s with hp2
    have hcop1 : p1.1.cop = st.cop := scanRobSide_cop g st _ _ s
    have hrob1 : ∀ t, st.rob.getD t false = true → p1.1.rob.getD t false = true :=
      fun t => scanRobSide_rob_mono g st _ _ s t
    have hJ1 : Jus g cfgs trans p1.1 := by
      intro t hc
      rw [hcop1] at hc
      rcases hJ t hc with h | ⟨nc, hm, hr⟩
      · exact Or.inl h
      · exact Or.inr ⟨nc, hm, hrob1 _ hr⟩
    have hrob2 : p2.1.rob = p1.1.rob := scanCopSide_rob g trans p1.1 _ _ s
    intro t hc
    by_cases hfired : p2.2 = true
    · obtain ⟨hst, hold, hany⟩ := scanCopSide_fired g trans p1.1 _ _ s hfired
      rw [hst] at hc
      simp only [] at hc
      by_cases hts : t = s
      · subst hts
        obtain ⟨nc, hncm, hncr⟩ := List.any_eq_true.mp hany
        refine Or.inr ⟨nc, hncm, ?_⟩
        rw [hrob2]
        exact hncr
      · rw [getD_set_ne (fun h => hts h.symm)] at hc
        rcases hJ1 t hc with h | ⟨nc, hm, hr⟩
        · exact Or.inl h
        · refine Or.inr ⟨nc, hm, ?_⟩
          rw [hrob2]
          exact hr
    · have hf : p2.2 = false := by revert hfired; cases p2.2 <;> simp
      rw [scanCopSide_cop_of_not_fired g trans p1.1 _ _ s hf] at hc
      rcases hJ1 t hc with h | ⟨nc, hm, hr⟩
      · exact Or.inl h
      · refine Or.inr ⟨nc, hm, ?_⟩
        rw [hrob2]
        exact hr

/-- The scan body preserves the capture flags. -/
theorem scanBody_caught (g : CRGraph) (cfgs trans : List (List Nat))
    (acc : ScanState × Nat) (s : Nat) (hC : CaughtCop g cfgs acc.1) :
    CaughtCop g cfgs (scanBody g cfgs trans acc s).1 := by
  obtain ⟨st, cnt⟩ := acc
  rw [scanBody_eq]
  by_cases hskip : st.cop.getD s false = true ∧ st.rob.getD s false = true
  · rw [if_pos hskip]
    exact hC
  · rw [if_neg hskip]
    intro t ht hca
    have h1 : (scanRobSide g st (s / g.N) (s % g.N) s).1.cop.getD t false = true := by
      rw [scanRobSide_cop]
      exact hC t ht hca
    exact scanCopSide_cop_mono g trans _ _ _ s t h1

theorem foldl_preserves {α : Type} {P : ScanState → Prop}
    (f : ScanState × Nat → α → ScanState × Nat)
    (hf : ∀ acc a, P acc.1 → P (f acc a).1) :
    ∀ (l : List α) (acc : ScanState × Nat), P acc.1 → P (l.foldl f acc).1 := by
  intro l
  induction l with
  | nil => intro acc h; exact h
  | cons a l ih => intro acc h; exact ih (f acc a) (hf acc a h)

/-- Count can only grow along the fold. -/
theorem scanBody_count_le (g : CRGraph) (cfgs trans : List (List Nat))
    (acc : ScanState × Nat) (s : Nat) :
    acc.2 ≤ (scanBody g cfgs trans acc s).2 := by
  obtain ⟨st, cnt⟩ := acc
  rw [scanBody_eq]
  by_cases hskip : st.cop.getD s false = true ∧ st.rob.getD s false = true
  · rw [if_pos hskip]
  · rw [if_neg hskip]
    dsimp only
    split_ifs <;> omega

theorem scanFold_count_le (g : CRGraph) (cfgs trans : List (List Nat)) :
    ∀ (l : List Nat) (acc : ScanState × Nat),
    acc.2 ≤ (l.foldl (scanBody g cfgs trans) acc).2 := by
  intro l
  induction l with
  | nil => intro acc; exact Nat.le_refl _
  | cons a l ih =>
    intro acc
    exact Nat.le_trans (scanBody_count_le g cfgs trans acc a) (ih _)

/-- A body call that leaves the count unchanged leaves the win flags
unchanged, and its cop check failed. -/
theorem scanBody_count_eq (g : CRGraph) (cfgs trans : List (List Nat))
    (st : ScanState) (cnt s : Nat) (st' : ScanState)
    (h : scanBody g cfgs trans (st, cnt) s = (st', cnt)) :
    st'.cop = st.cop ∧ st'.rob = st.rob ∧
    (st.cop.getD s false = false →
      (trans.getD (s / g.N) []).any
        (fun nc => st.rob.getD (nc * g.N + (s % g.N)) false) = false) := by
  rw [scanBody_eq] at h
  by_cases hskip : st.cop.getD s false = true ∧ st.rob.getD s false = true
  · rw [if_pos hskip] at h
    have h1 : st = st' := by
      have := congrArg Prod.fst h
      simpa using this
    subst h1
    refine ⟨rfl, rfl, ?_⟩
    intro hc
    rw [hc] at hskip
    simp at hskip
  · rw [if_neg hskip] at h
    set p1 := scanRobSide g st (s / g.N) (s % g.N) s with hp1
    set p2 := scanCopSide g trans p1.1 (s / g.N) (s % g.N) s with hp2
    have hcnt : cnt + (if p1.2 then 1 else 0) + (if p2.2 then 1 else 0) = cnt := by
      have := congrArg Prod.snd h
      simpa using this
    have hf1 : p1.2 = false := by
      cases h1 : p1.2
      · rfl
      · exfalso
        rw [h1] at hcnt
        cases h2 : p2.2 <;> rw [h2] at hcnt <;> simp at hcnt
        omega
    have hf2 : p2.2 = false := by
      cases h2 : p2.2
      · rfl
      · exfalso
        rw [h2] at hcnt
        cases h1 : p1.2 <;> rw [h1] at hcnt <;> simp at hcnt
        omega
    have hst' : st' = p2.1 := by
      have := congrArg Prod.fst h
      simpa using this.symm
    have hrob1 : p1.1.rob = st.rob := scanRobSide_rob_of_not_fired g st _ _ s hf1
    have hcop1 : p1.1.cop = st.cop := scanRobSide_cop g st _ _ s
    have hcop2 : p2.1.cop = p1.1.cop := scanCopSide_cop_of_not_fired g trans p1.1 _ _ s hf2
    have hrob2 : p2.1.rob = p1.1.rob := scanCopSide_rob g trans p1.1 _ _ s
    refine ⟨by rw [hst', hcop2, hcop1], by rw [hst', hrob2, hrob1], ?_⟩
    intro hcfalse
    rcases scanCopSide_not_fired g trans p1.1 _ _ s hf2 with h | h
    · rw [hcop1, hcfalse] at h
      simp at h
    · rw [hrob1] at h
      exact h

/-- A whole pass with zero new wins: flags unchanged, and every state's
cop check failed against the (unchanged) tables. -/
theorem scanFold_zero (g : CRGraph) (cfgs trans : List (List Nat)) :
    ∀ (l : List Nat) (st : ScanState) (cnt : Nat) (st' : ScanState),
    l.foldl (scanBody g cfgs trans) (st, cnt) = (st', cnt) →
    (st'.cop = st.cop ∧ st'.rob = st.rob) ∧
    ∀ s ∈ l, st.cop.getD s false = false →
      (trans.getD (s / g.N) []).any
        (fun nc => st.rob.getD (nc * g.N + (s % g.N)) false) = false := by
  intro l
  induction l with
  | nil =>
    intro st cnt st' h
    simp only [List.foldl_nil] at h
    have h1 : st = st' := by
      have := congrArg Prod.fst h
      simpa using this
    subst h1
    exact ⟨⟨rfl, rfl⟩, by simp⟩
  | cons a l ih =>
    intro st cnt st' h
    simp only [List.foldl_cons] at h
    rcases hb : scanBody g cfgs trans (st, cnt) a with ⟨s1, c1⟩
    rw [hb] at h
    have hle1 : cnt ≤ c1 := by
      have := scanBody_count_le g cfgs trans (st, cnt) a
      rw [hb] at this
      exact this
    have hle2 := scanFold_count_le g cfgs trans l (s1, c1)
    rw [h] at hle2
    simp only [] at hle2
    have hc1eq : c1 = cnt := by omega
    rw [hc1eq] at hb h
    obtain ⟨hc1, hr1, hchk1⟩ := scanBody_count_eq g cfgs trans st cnt a s1 hb
    obtain ⟨⟨hc', hr'⟩, hchks⟩ := ih s1 cnt st' h
    refine ⟨⟨by rw [hc', hc1], by rw [hr', hr1]⟩, ?_⟩
    intro s hs
    rcases List.mem_cons.mp hs with rfl | hsl
    · exact hchk1
    · intro hcfalse
      have := hchks s hsl (by rw [hc1]; exact hcfalse)
      rw [hr1] at this
      exact this

theorem contains_iff_mem {l : List Nat} {a : Nat} : l.contains a = true ↔ a ∈ l := by
  simp [List.contains_iff_exists_mem_beq]

/-- Characterization of the initialized tables: a win flag is set
exactly on the capture states (within range). -/
theorem scanInit_spec (g : CRGraph) (cfgs : List (List Nat)) :
    ∀ s, ((scanInit g cfgs).cop.getD s false = true ↔
            s < cfgs.length * g.N ∧ Caught g cfgs s) ∧
         ((scanInit g cfgs).rob.getD s false = true ↔
            s < cfgs.length * g.N ∧ Caught g cfgs s) := by
  have main : ∀ n, n ≤ cfgs.length * g.N →
      let stn := (List.range n).foldl (scanInitBody g cfgs)
        ⟨List.replicate (cfgs.length * g.N) false,
         List.replicate (cfgs.length * g.N) false,
         List.replicate (cfgs.length * g.N) 0⟩
      stn.cop.length = cfgs.length * g.N ∧ stn.rob.length = cfgs.length * g.N ∧
      ∀ s, (stn.cop.getD s false = true ↔ s < n ∧ Caught g cfgs s) ∧
           (stn.rob.getD s false = true ↔ s < n ∧ Caught g cfgs s) := by
    intro n
    induction n with
    | zero =>
      intro _
      refine ⟨by simp, by simp, ?_⟩
      intro s
      constructor <;> constructor <;> intro h <;> simp_all [List.getD_eq_getElem?_getD] <;>
        rcases h with ⟨h1, -⟩ <;> omega
    | succ n ihn =>
      intro hle
      obtain ⟨hlc, hlr, hspec⟩ := ihn (by omega)
      rw [List.range_succ, List.foldl_append, List.foldl_cons, List.foldl_nil]
      set stn := (List.range n).foldl (scanInitBody g cfgs)
        ⟨List.replicate (cfgs.length * g.N) false,
         List.replicate (cfgs.length * g.N) false,
         List.replicate (cfgs.length * g.N) 0⟩ with hstn
      unfold scanInitBody
      dsimp only
      by_cases hcau : (cfgs.getD (n / g.N) []).contains (n % g.N) = true
      · rw [if_pos hcau]
        have hcauP : Caught g cfgs n := contains_iff_mem.mp hcau
        refine ⟨by simpa using hlc, by simpa using hlr, ?_⟩
        intro s
        by_cases hsn : s = n
        · subst hsn
          rw [getD_set_self (by omega), getD_set_self (by omega)]
          simp [hcauP]
        · rw [getD_set_ne (fun h => hsn h.symm), getD_set_ne (fun h => hsn h.symm)]
          obtain ⟨h1, h2⟩ := hspec s
          constructor
          · rw [h1]
            constructor
            · rintro ⟨hs, hc⟩; exact ⟨by omega, hc⟩
            · rintro ⟨hs, hc⟩; exact ⟨by omega, hc⟩
          · rw [h2]
            constructor
            · rintro ⟨hs, hc⟩; exact ⟨by omega, hc⟩
            · rintro ⟨hs, hc⟩; exact ⟨by omega, hc⟩
      · rw [if_neg hcau]
        have hncau : ¬ Caught g cfgs n := fun h => hcau (contains_iff_mem.mpr h)
        refine ⟨hlc, hlr, ?_⟩
        intro s
        obtain ⟨h1, h2⟩ := hspec s
        constructor
        · rw [h1]
          constructor
          · rintro ⟨hs, hc⟩; exact ⟨by omega, hc⟩
          · rintro ⟨hs, hc⟩
            refine ⟨?_, hc⟩
            rcases Nat.lt_succ_iff_lt_or_eq.mp hs with h | h
            · exact h
            · subst h; exact absurd hc hncau
        · rw [h2]
          constructor
          · rintro ⟨hs, hc⟩; exact ⟨by omega, hc⟩
          · rintro ⟨hs, hc⟩
            refine ⟨?_, hc⟩
            rcases Nat.lt_succ_iff_lt_or_eq.mp hs with h | h
            · exact h
            · subst h; exact absurd hc hncau
  intro s
  exact (main (cfgs.length * g.N) (Nat.le_refl _)).2.2 s

/-- The loop invariant carrier: a `some` result is reachable and the
final pass flags nothing. -/
theorem scanLoop_result (g : CRGraph) (cfgs trans : List (List Nat))
    (P : ScanState → Prop)
    (hstep : ∀ st, P st → P (scanStep g cfgs trans st).1) :
    ∀ fuel st T, P st → scanLoop g cfgs trans fuel st = some T →
    P T ∧ ∃ stL, P stL ∧ scanStep g cfgs trans stL = (T, 0) := by
  intro fuel
  induction fuel with
  | zero => intro st T _ h; simp [scanLoop] at h
  | succ fuel ih =>
    intro st T hP h
    rw [scanLoop] at h
    by_cases hz : (scanStep g cfgs trans st).2 = 0
    · rw [if_pos hz] at h
      have hT : (scanStep g cfgs trans st).1 = T := by
        injection h
      refine ⟨hT ▸ hstep st hP, st, hP, ?_⟩
      have : scanStep g cfgs trans st =
          ((scanStep g cfgs trans st).1, (scanStep g cfgs trans st).2) := rfl
      rw [this, hz, hT]
    · rw [if_neg hz] at h
      exact ih _ T (hstep st hP) h

/-- C2: after the iterative-scan solver's main loop terminates, for
every configuration `C` (id `cId`) and robber vertex `r`:
`copWin(C,r) = 1` iff some successor configuration in the
precalculated `copTransitions[cId]` has `robberWin = 1` at `r`, or
`r ∈ C` (immediate capture). -/
theorem C2_fixpoint (g : CRGraph) (k : Nat) (T : ScanState)
    (hrun : solveKCops g k = some T) :
    ∀ cId r, cId < (kcopsConfigs g k).length → r < g.N →
      (T.cop.getD (cId * g.N + r) false = true ↔
        ((∃ nc ∈ (kcopsTrans g k).getD cId [],
            T.rob.getD (nc * g.N + r) false = true) ∨
         r ∈ (kcopsConfigs g k).getD cId [])) := by
  unfold solveKCops at hrun
  by_cases hN : g.N = 0
  · rw [if_pos hN] at hrun
    simp at hrun
  · rw [if_neg hN] at hrun
    intro cId r hcId hr
    have hNpos : 0 < g.N := Nat.pos_of_ne_zero hN
    set cfgs := kcopsConfigs g k with hcfgs
    set trans := kcopsTrans g k with htrans
    set s := cId * g.N + r with hs
    have hdiv : s / g.N = cId := by
      rw [hs, Nat.mul_comm cId g.N, Nat.mul_add_div hNpos, Nat.div_eq_of_lt hr]
      omega
    have hmod : s % g.N = r := by
      rw [hs, Nat.mul_comm cId g.N, Nat.mul_add_mod, Nat.mod_eq_of_lt hr]
    have hsrange : s < cfgs.length * g.N := by
      have h1 : s < (cId + 1) * g.N := by
        rw [hs, Nat.succ_mul]
        omega
      have h2 : (cId + 1) * g.N ≤ cfgs.length * g.N :=
        Nat.mul_le_mul_right _ (by omega)
      omega
    -- invariants through the run
    have hstep : ∀ st, (Jus g cfgs trans st ∧ CaughtCop g cfgs st) →
        (Jus g cfgs trans (scanStep g cfgs trans st).1 ∧
         CaughtCop g cfgs (scanStep g cfgs trans st).1) := by
      intro st hP
      unfold scanStep
      constructor
      · exact foldl_preserves (scanBody g cfgs trans)
          (fun acc a h => scanBody_jus g cfgs trans acc a h) _ (st, 0) hP.1
      · exact foldl_preserves (scanBody g cfgs trans)
          (fun acc a h => scanBody_caught g cfgs trans acc a h) _ (st, 0) hP.2
    have hinit : Jus g cfgs trans (scanInit g cfgs) ∧ CaughtCop g cfgs (scanInit g cfgs) := by
      constructor
      · intro t ht
        exact Or.inl (((scanInit_spec g cfgs t).1.mp ht).2)
      · intro t ht hca
        exact (scanInit_spec g cfgs t).1.mpr ⟨ht, hca⟩
    obtain ⟨⟨hJT, hCT⟩, stL, ⟨hJL, hCL⟩, hL⟩ :=
      scanLoop_result g cfgs trans _ hstep _ _ T hinit hrun
    obtain ⟨⟨hcEq, hrEq⟩, hchks⟩ :=
      scanFold_zero g cfgs trans (List.range (cfgs.length * g.N)) stL 0 T hL
    constructor
    · intro hc
      rcases hJT s hc with hca | ⟨nc, hm, hrb⟩
      · right
        rw [Caught, hdiv, hmod] at hca
        exact hca
      · left
        rw [hdiv] at hm
        rw [hmod] at hrb
        exact ⟨nc, hm, hrb⟩
    · rintro (⟨nc, hm, hrb⟩ | hca)
      · by_contra hcf
        have hcf' : T.cop.getD s false = false := by
          revert hcf; cases T.cop.getD s false <;> simp
        have hany := hchks s (List.mem_range.mpr hsrange)
          (by rw [← hcEq]; exact hcf')
        rw [hdiv, hmod] at hany
        have := List.any_eq_false.mp hany nc hm
        rw [← hrEq] at this
        rw [hrb] at this
        simp at this
      · exact hCT s hsrange (by rw [Caught, hdiv, hmod]; exact hca)

/-- C2 witness: the fixed-point characterization evaluated on the path
`P3` with one cop, at configuration id 1 (cop on vertex 1) and robber
vertex 0. -/
theorem C2_fixpoint_witness :
    solveKCops pathG3 1 = some ((solveKCops pathG3 1).getD ⟨[], [], []⟩) ∧
    (((solveKCops pathG3 1).getD ⟨[], [], []⟩).cop.getD (1 * pathG3.N + 0) false = true ↔
      ((∃ nc ∈ (kcopsTrans pathG3 1).getD 1 [],
          ((solveKCops pathG3 1).getD ⟨[], [], []⟩).rob.getD (nc * pathG3.N + 0) false = true) ∨
       0 ∈ (kcopsConfigs pathG3 1).getD 1 [])) :=
  ⟨by rfl,
   C2_fixpoint pathG3 1 ((solveKCops pathG3 1).getD ⟨[], [], []⟩) (by rfl) 1 0
     (by decide) (by decide)⟩

/-- C3: the claim states that scanning the adjacency row of any vertex
up to the first `255` sentinel yields exactly its neighbour list, in
particular for a vertex of maximal degree.  On `P3` the max-degree
vertex `1` has a completely full row (no sentinel slot), so the scan
runs into the next row and returns `[0, 2, 1]` — including vertex `1`
itself — instead of `[0, 2]`. -/
theorem C3_sentinel_scan_bug :
    deg pathG3 1 = maxDeg pathG3 ∧
    nbrs pathG3 1 = [0, 2] ∧
    edgeScan pathG3 1 = [0, 2, 1] := by
  refine ⟨by decide, by decide, by decide⟩

/-- C1: the claim is that the iterative-scan solver (`k_cops.cpp`) and
the queue-based retrograde solver (`k_cops_3.cpp`) reach identical
`copTurnWins` / `robberTurnWins` tables on every input.  On the paw
graph with one cop they disagree at state `(C = [0], r = 1)`
(state id `0 * 4 + 1 = 1`): the iterative solver reaches
`robberTurnWins = 1`, the queue solver leaves it `0` — its sentinel
scan for the full row of vertex `1` spills into the next row, so that
vertex's safe-move counter is initialized to 6 although only 5
decrements can ever arrive. -/
theorem C1_divergence :
    (solveKCops pawG 1).map (fun t => t.rob.getD 1 false) = some true ∧
    (solveK3 pawG 1).map (fun t => t.rob.getD 1 0) = some 0 :=
  ⟨rfl, rfl⟩

/-! ## Invariants of the wave solver -/
theorem mem_nbrs {g : CRGraph} {v x : Nat} :
    x ∈ nbrs g v ↔ x < g.N ∧ g.edge v x = true := by
  unfold nbrs
  simp [List.mem_filter, List.mem_range]

theorem nodup_nbrs (g : CRGraph) (v : Nat) : (nbrs g v).Nodup :=
  List.Nodup.filter _ (List.nodup_range g.N)

theorem not_mem_nbrs_self {g : CRGraph} (hirr : ∀ i < g.N, g.edge i i = false)
    (v : Nat) : v ∉ nbrs g v := by
  intro h
  rw [mem_nbrs] at h
  rw [hirr v h.1] at h
  exact Bool.false_ne_true h.2

theorem nodup_closed {g : CRGraph} (hirr : ∀ i < g.N, g.edge i i = false)
    (v : Nat) : (v :: nbrs g v).Nodup :=
  List.nodup_cons.mpr ⟨not_mem_nbrs_self hirr v, nodup_nbrs g v⟩

theorem closed_length_le {g : CRGraph} (hirr : ∀ i < g.N, g.edge i i = false)
    {v : Nat} (hv : v < g.N) : (v :: nbrs g v).length ≤ g.N := by
  have hsub : (v :: nbrs g v) ⊆ List.range g.N := by
    intro x hx
    rcases List.mem_cons.mp hx with rfl | hx
    · exact List.mem_range.mpr hv
    · exact List.mem_range.mpr (mem_nbrs.mp hx).1
  have := List.Subperm.length_le
    (List.subperm_of_subset (nodup_closed hirr v) hsub)
  simpa using this

/-- With clean sentinel scans, the stored robber degree is the size of
the closed neighbourhood. -/
theorem robberDeg_eq {g : CRGraph} (hscan : ∀ v < g.N, edgeScan g v = nbrs g v)
    {r : Nat} (hr : r < g.N) : robberDeg g r = (r :: nbrs g r).length := by
  unfold robberDeg
  rw [hscan r hr, List.length_cons]
  omega

theorem mem_nbrs_symm {g : CRGraph}
    (hsym : ∀ i < g.N, ∀ j < g.N, g.edge i j = g.edge j i)
    {u v : Nat} (hu : u < g.N) (hv : v < g.N) : u ∈ nbrs g v ↔ v ∈ nbrs g u := by
  rw [mem_nbrs, mem_nbrs, hsym v hv u hu]
  simp [hu, hv]

theorem mem_closed_symm {g : CRGraph}
    (hsym : ∀ i < g.N, ∀ j < g.N, g.edge i j = g.edge j i)
    {u v : Nat} (hu : u < g.N) (hv : v < g.N) :
    u ∈ v :: nbrs g v ↔ v ∈ u :: nbrs g u := by
  rw [List.mem_cons, List.mem_cons, mem_nbrs_symm hsym hu hv]
  constructor
  · rintro (rfl | h)
    · exact Or.inl rfl
    · exact Or.inr h
  · rintro (rfl | h)
    · exact Or.inl rfl
    · exact Or.inr h

theorem id_div {Nn cId v : Nat} (hN : 0 < Nn) (hv : v < Nn) :
    (cId * Nn + v) / Nn = cId := by
  rw [Nat.mul_comm cId Nn, Nat.mul_add_div hN, Nat.div_eq_of_lt hv, Nat.add_zero]

theorem id_mod {Nn cId v : Nat} (hv : v < Nn) : (cId * Nn + v) % Nn = v := by
  rw [Nat.mul_comm cId Nn, Nat.mul_add_mod, Nat.mod_eq_of_lt hv]

theorem id_lt {Nn M cId v : Nat} (hcid : cId < M) (hv : v < Nn) :
    cId * Nn + v < M * Nn := by
  calc cId * Nn + v < cId * Nn + Nn := by omega
  _ = (cId + 1) * Nn := by rw [Nat.succ_mul]
  _ ≤ M * Nn := Nat.mul_le_mul_right _ hcid

theorem id_inj {Nn c1 v1 c2 v2 : Nat} (hN : 0 < Nn) (hv1 : v1 < Nn) (hv2 : v2 < Nn)
    (h : c1 * Nn + v1 = c2 * Nn + v2) : c1 = c2 ∧ v1 = v2 := by
  have h1 := congrArg (· / Nn) h
  have h2 := congrArg (· % Nn) h
  simp only at h1 h2
  rw [id_div hN hv1, id_div hN hv2] at h1
  rw [id_mod hv1, id_mod hv2] at h2
  exact ⟨h1, h2⟩

theorem state_div_lt {Nn M s : Nat} (hN : 0 < Nn) (hs : s < M * Nn) :
    s / Nn < M :=
  Nat.div_lt_of_lt_mul (by rw [Nat.mul_comm]; exact hs)

theorem state_eta {Nn s : Nat} : (s / Nn) * Nn + s % Nn = s := by
  rw [Nat.mul_comm]
  exact Nat.div_add_mod s Nn

theorem caught_id {g : CRGraph} {cfgs : List (List Nat)} {cId v : Nat}
    (hN : 0 < g.N) (hv : v < g.N) :
    Caught g cfgs (cId * g.N + v) ↔ v ∈ cfgs.getD cId [] := by
  unfold Caught
  rw [id_div hN hv, id_mod hv]

theorem contains_eq_false {l : List Nat} {a : Nat} (h : a ∉ l) :
    l.contains a = false := by
  cases hc : l.contains a
  · rfl
  · exact absurd (contains_iff_mem.mp hc) h

theorem contains_cons_ne {L : List Nat} {a x : Nat} (h : x ≠ a) :
    (a :: L).contains x = L.contains x := by
  cases hc : L.contains x
  · apply contains_eq_false
    intro hm
    rcases List.mem_cons.mp hm with rfl | hm'
    · exact h rfl
    · have := contains_iff_mem.mpr hm'
      rw [hc] at this
      exact Bool.noConfusion this
  · exact contains_iff_mem.mpr (List.mem_cons_of_mem a (contains_iff_mem.mp hc))

theorem contains_snoc_ne {L : List Nat} {a x : Nat} (h : x ≠ a) :
    (L ++ [a]).contains x = L.contains x := by
  cases hc : L.contains x
  · apply contains_eq_false
    intro hm
    rcases List.mem_append.mp hm with hm' | hm'
    · have := contains_iff_mem.mpr hm'
      rw [hc] at this
      exact Bool.noConfusion this
    · exact h (List.mem_singleton.mp hm')
  · exact contains_iff_mem.mpr (List.mem_append_left _ (contains_iff_mem.mp hc))

theorem nodup_snoc {α : Type} {l : List α} {a : α} (h : l.Nodup) (ha : a ∉ l) :
    (l ++ [a]).Nodup := by
  rw [List.nodup_append]
  refine ⟨h, List.nodup_singleton a, fun x hx hxa => ?_⟩
  rw [List.mem_singleton] at hxa
  exact ha (hxa ▸ hx)

theorem getD_set_one {l : List Nat} {s t : Nat} (h : l.getD t 0 = 1) :
    (l.set s 1).getD t 0 = 1 := by
  by_cases hst : s = t
  · subst hst
    by_cases hl : s < l.length
    · rw [getD_set_self hl]
    · rw [List.set_eq_of_length_le (by omega)]
      exact h
  · rw [getD_set_ne hst]
    exact h

/-- Counting flip: if a Nodup list contains a distinguished element on
which the predicate flips from false to true while all other elements
agree, the filter grows by exactly one. -/
theorem filter_length_flip (v : Nat) {p q : Nat → Bool} :
    ∀ {l : List Nat}, l.Nodup → v ∈ l → p v = false → q v = true →
    (∀ x ∈ l, x ≠ v → p x = q x) →
    (l.filter q).length = (l.filter p).length + 1 := by
  intro l
  induction l with
  | nil => intro _ hv; cases hv
  | cons a t ih =>
    intro hnd hv hpv hqv hagree
    rcases List.mem_cons.mp hv with rfl | hvt
    · have hq : (v :: t).filter q = v :: t.filter q := by
        rw [List.filter_cons, if_pos hqv]
      have hp : (v :: t).filter p = t.filter p := by
        rw [List.filter_cons, if_neg (by simp [hpv])]
      have hft : t.filter q = t.filter p := by
        apply List.filter_congr
        intro x hx
        exact (hagree x (List.mem_cons_of_mem _ hx)
          (fun he => (List.nodup_cons.mp hnd).1 (he ▸ hx))).symm
      rw [hq, hp, List.length_cons, hft]
    · have hne : a ≠ v := fun he => (List.nodup_cons.mp hnd).1 (he ▸ hvt)
      have hpa := hagree a (List.mem_cons_self a t) hne
      have hrec := ih (List.nodup_cons.mp hnd).2 hvt hpv hqv
        (fun x hx hxv => hagree x (List.mem_cons_of_mem _ hx) hxv)
      rw [List.filter_cons, List.filter_cons, ← hpa]
      by_cases hpa' : p a = true
      · rw [if_pos hpa', if_pos hpa']
        simp only [List.length_cons]
        omega
      · rw [if_neg hpa', if_neg hpa']
        exact hrec

/-- Term-level congruence for the decrement count. -/
theorem doneCnt_congr {g : CRGraph} {st st' : K3State} {Q Q' : List Nat}
    {cId r : Nat}
    (h : ∀ v ∈ r :: nbrs g r,
      (st'.cop.getD (cId * g.N + v) 0 == 1 && !(Q'.contains (cId * g.N + v))) =
      (st.cop.getD (cId * g.N + v) 0 == 1 && !(Q.contains (cId * g.N + v)))) :
    doneCnt g st' Q' cId r = doneCnt g st Q cId r := by
  unfold doneCnt
  rw [List.filter_congr h]

theorem doneCnt_le (g : CRGraph) (st : K3State) (Q : List Nat) (cId r : Nat) :
    doneCnt g st Q cId r ≤ (r :: nbrs g r).length :=
  List.length_filter_le _ _

theorem midInv_nil {g : CRGraph} {cfgs : List (List Nat)} {cId0 : Nat}
    {st : K3State} {Q : List Nat} (h : MidInv g cfgs cId0 [] st Q) :
    K4Inv g cfgs st Q := by
  refine K4Inv.mk h.lenc h.lenr h.lens h.ccop h.crob h.pcop h.prb h.ndq h.cop01
    ?_ ?_ ?_
  · intro s hs hc
    exact (h.onc s hs (by simp) hc).1
  · intro s hs hc
    exact h.oc s hs (by simp) hc
  · intro s hs hc
    exact (h.onc s hs (by simp) hc).2

theorem k4CopClaim_eq (p : K3State × List Nat) (ps : Nat) :
    k4CopClaim p ps =
      if p.1.cop.getD ps 0 = 0 then
        (⟨p.1.cop.set ps 1, p.1.rob, p.1.safe⟩, p.2 ++ [ps])
      else (⟨p.1.cop.set ps 1, p.1.rob, p.1.safe⟩, p.2) := rfl

/-- `K4Inv` only looks at lengths and `getD` values. -/
theorem k4Inv_congr {g : CRGraph} {cfgs : List (List Nat)} {st st' : K3State}
    {Q : List Nat}
    (hlc : st'.cop.length = st.cop.length) (hlr : st'.rob.length = st.rob.length)
    (hls : st'.safe.length = st.safe.length)
    (hc : ∀ t, st'.cop.getD t 0 = st.cop.getD t 0)
    (hr : ∀ t, st'.rob.getD t 0 = st.rob.getD t 0)
    (hs : ∀ t, st'.safe.getD t 0 = st.safe.getD t 0)
    (h : K4Inv g cfgs st Q) : K4Inv g cfgs st' Q := by
  have hD : ∀ cId r, doneCnt g st' Q cId r = doneCnt g st Q cId r := by
    intro cId r
    apply doneCnt_congr
    intro v hv
    rw [hc]
  exact K4Inv.mk (by rw [hlc, h.lenc]) (by rw [hlr, h.lenr]) (by rw [hls, h.lens])
    (fun s hs1 hc1 => by rw [hc]; exact h.ccop s hs1 hc1)
    (fun s hs1 hc1 => by rw [hr]; exact h.crob s hs1 hc1)
    (fun t ht htR => ⟨by rw [hc]; exact (h.pcop t ht htR).1, (h.pcop t ht htR).2⟩)
    (fun t ht htR => ⟨by rw [hr]; exact (h.prb t ht htR).1, (h.prb t ht htR).2⟩)
    h.ndq
    (fun s => by rw [hc]; exact h.cop01 s)
    (fun s hs1 hc1 => by rw [hs, hD]; exact h.snc s hs1 hc1)
    (fun s hs1 hc1 => by rw [hs, hD]; exact h.sc s hs1 hc1)
    (fun s hs1 hc1 => by rw [hr, hD]; exact h.riff s hs1 hc1)

/-- One cop claim preserves the wave invariant: the target leaves or
enters both the flag array and the pending queue together, so
`doneCnt` is unchanged everywhere. -/
theorem k4CopClaim_inv {g : CRGraph} {cfgs : List (List Nat)}
    (hsz : cfgs.length * g.N < ROBBIT)
    {p : K3State × List Nat} {rest : List Nat} {ps : Nat}
    (hps : ps < cfgs.length * g.N)
    (hInv : K4Inv g cfgs p.1 (rest ++ p.2)) :
    K4Inv g cfgs (k4CopClaim p ps).1 (rest ++ (k4CopClaim p ps).2) := by
  have hlen : ps < p.1.cop.length := by rw [hInv.lenc]; exact hps
  by_cases hold : p.1.cop.getD ps 0 = 0
  case neg =>
    have hold1 : p.1.cop.getD ps 0 = 1 := by
      rcases hInv.cop01 ps with h | h
      · exact absurd h hold
      · exact h
    rw [k4CopClaim_eq, if_neg hold]
    refine k4Inv_congr ?_ ?_ ?_ ?_ ?_ ?_ hInv
    · simp
    · rfl
    · rfl
    · intro t
      by_cases ht : ps = t
      · subst ht
        rw [getD_set_self hlen, hold1]
      · rw [getD_set_ne ht]
    · intro t
      rfl
    · intro t
      rfl
  case pos =>
    rw [k4CopClaim_eq, if_pos hold]
    have hpsR : ps < ROBBIT := by omega
    have hnotin : ps ∉ rest ++ p.2 := by
      intro hin
      have := (hInv.pcop ps hin hpsR).1
      omega
    have hassoc : rest ++ (p.2 ++ [ps]) = (rest ++ p.2) ++ [ps] :=
      (List.append_assoc _ _ _).symm
    have hmemps : ps ∈ rest ++ (p.2 ++ [ps]) :=
      List.mem_append_right _ (List.mem_append_right _ (List.mem_singleton_self ps))
    have hD : ∀ cId r,
        doneCnt g ⟨p.1.cop.set ps 1, p.1.rob, p.1.safe⟩ (rest ++ (p.2 ++ [ps])) cId r =
        doneCnt g p.1 (rest ++ p.2) cId r := by
      intro cId r
      apply doneCnt_congr
      intro v hv
      by_cases hid : cId * g.N + v = ps
      · rw [hid, getD_set_self hlen, contains_iff_mem.mpr hmemps, hold]
        simp
      · have hne : ps ≠ cId * g.N + v := fun he => hid he.symm
        rw [getD_set_ne hne, hassoc, contains_snoc_ne hid]
    refine K4Inv.mk ?_ hInv.lenr hInv.lens ?_ hInv.crob ?_ ?_ ?_ ?_ ?_ ?_ ?_
    · simp [hInv.lenc]
    · intro s hs1 hc1
      by_cases hsp : ps = s
      · subst hsp
        exact getD_set_self hlen
      · rw [getD_set_ne hsp]
        exact hInv.ccop s hs1 hc1
    · intro t ht htR
      rw [hassoc] at ht
      rcases List.mem_append.mp ht with ht' | ht'
      · exact ⟨getD_set_one (hInv.pcop t ht' htR).1, (hInv.pcop t ht' htR).2⟩
      · rw [List.mem_singleton] at ht'
        subst ht'
        exact ⟨getD_set_self hlen, hps⟩
    · intro t ht htR
      rw [hassoc] at ht
      rcases List.mem_append.mp ht with ht' | ht'
      · exact hInv.prb t ht' htR
      · rw [List.mem_singleton] at ht'
        subst ht'
        omega
    · rw [hassoc]
      exact nodup_snoc hInv.ndq hnotin
    · intro s
      by_cases hsp : ps = s
      · subst hsp
        rw [getD_set_self hlen]
        exact Or.inr rfl
      · rw [getD_set_ne hsp]
        exact hInv.cop01 s
    · intro s hs1 hc1
      rw [hD]
      exact hInv.snc s hs1 hc1
    · intro s hs1 hc1
      rw [hD]
      exact hInv.sc s hs1 hc1
    · intro s hs1 hc1
      rw [hD]
      exact hInv.riff s hs1 hc1

theorem k4ClaimFold_inv {g : CRGraph} {cfgs : List (List Nat)}
    (hsz : cfgs.length * g.N < ROBBIT) :
    ∀ (ts : List Nat) (p : K3State × List Nat) (rest : List Nat),
      (∀ t ∈ ts, t < cfgs.length * g.N) →
      K4Inv g cfgs p.1 (rest ++ p.2) →
      K4Inv g cfgs (ts.foldl k4CopClaim p).1 (rest ++ (ts.foldl k4CopClaim p).2) := by
  intro ts
  induction ts with
  | nil => intro p rest _ h; exact h
  | cons t ts ih =>
    intro p rest hts h
    rw [List.foldl_cons]
    exact ih (k4CopClaim p t) rest (fun x hx => hts x (List.mem_cons_of_mem t hx))
      (k4CopClaim_inv hsz (hts t (List.mem_cons_self t ts)) h)

theorem mem_uniqueConsec : ∀ (l : List Nat) (x : Nat), x ∈ uniqueConsec l → x ∈ l
  | [], _, h => h
  | [_], _, h => h
  | a :: b :: t, x, h => by
    rw [uniqueConsec] at h
    split_ifs at h with hab
    · exact List.mem_cons_of_mem a (mem_uniqueConsec (b :: t) x h)
    · rcases List.mem_cons.mp h with rfl | h'
      · exact List.mem_cons_self _ _
      · exact List.mem_cons_of_mem a (mem_uniqueConsec (b :: t) x h')

theorem mem_sortDedup {l : List Nat} {x : Nat} (h : x ∈ sortDedup l) : x ∈ l := by
  unfold sortDedup at h
  exact (List.perm_insertionSort (· ≤ ·) l).mem_iff.mp (mem_uniqueConsec _ x h)

theorem tuplesProd_spec : ∀ (opts : List (List Nat)) (mv : List Nat),
    mv ∈ tuplesProd opts →
    mv.length = opts.length ∧ ∀ x ∈ mv, ∃ o ∈ opts, x ∈ o := by
  intro opts
  induction opts with
  | nil =>
    intro mv h
    simp only [tuplesProd, List.mem_singleton] at h
    subst h
    simp
  | cons o rest ih =>
    intro mv h
    simp only [tuplesProd, List.mem_flatMap, List.mem_map] at h
    obtain ⟨v, hv, t, ht, rfl⟩ := h
    obtain ⟨hlen, hmem⟩ := ih t ht
    refine ⟨by simp [hlen], ?_⟩
    intro x hx
    rcases List.mem_cons.mp hx with rfl | hx'
    · exact ⟨o, List.mem_cons_self _ _, hv⟩
    · obtain ⟨o', ho', hxo'⟩ := hmem x hx'
      exact ⟨o', List.mem_cons_of_mem _ ho', hxo'⟩

/-- With clean sentinel scans every entry of a CSR transition row is a
valid configuration id premultiplied by `N` (the binary search never
returns the sentinel, and the `size_t` products do not wrap). -/
theorem buildRow_valid {g : CRGraph} {k : Nat}
    (hN1 : 1 ≤ g.N) (hNle : g.N ≤ 255)
    (hscan : ∀ v < g.N, edgeScan g v = nbrs g v)
    (hMN : (generateCopConfigs g.N k).length * g.N < 2 ^ 64)
    {c : List Nat} (hc : c ∈ generateCopConfigs g.N k) :
    ∀ t ∈ buildRow g (generateCopConfigs g.N k) c,
      ∃ nid < (generateCopConfigs g.N k).length, t = nid * g.N := by
  intro t ht
  unfold buildRow at ht
  have ht' := mem_sortDedup ht
  rw [List.mem_map] at ht'
  obtain ⟨mv, hmv, rfl⟩ := ht'
  obtain ⟨hlen, hmem⟩ := tuplesProd_spec _ mv hmv
  have hvc := (mem_generateCopConfigs hN1 k c).mp hc
  have hkey : validTuple g.N k (List.insertionSort (· ≤ ·) mv) := by
    refine ⟨?_, ?_, ?_⟩
    · rw [(List.perm_insertionSort (· ≤ ·) mv).length_eq, hlen,
        List.length_map, hvc.1]
    · intro x hx
      have hx' := (List.perm_insertionSort (· ≤ ·) mv).mem_iff.mp hx
      obtain ⟨o, ho, hxo⟩ := hmem x hx'
      rw [List.mem_map] at ho
      obtain ⟨u, hu, rfl⟩ := ho
      have hu' : u < g.N := hvc.2.1 u hu
      rcases List.mem_cons.mp hxo with rfl | hxo'
      · exact hu'
      · rw [hscan u hu'] at hxo'
        exact (mem_nbrs.mp hxo').1
    · exact List.sorted_insertionSort (· ≤ ·) mv
  have hkeymem := (mem_generateCopConfigs hN1 k _).mpr hkey
  obtain ⟨i, hi, hgi⟩ := List.getElem_of_mem hkeymem
  have hgdi : (generateCopConfigs g.N k).getD i [] = List.insertionSort (· ≤ ·) mv := by
    rw [List.getD_eq_getElem (generateCopConfigs g.N k) [] hi]
    exact hgi
  have hlenle : (generateCopConfigs g.N k).length ≤ 2 ^ 64 := by
    have : (generateCopConfigs g.N k).length * 1 ≤
        (generateCopConfigs g.N k).length * g.N :=
      Nat.mul_le_mul_left _ hN1
    omega
  have hbs : bsearch (generateCopConfigs g.N k) (List.insertionSort (· ≤ ·) mv) =
      some i := by
    apply bsearch_finds (sorted_generateCopConfigs hN1 k) _ hlenle hi hgdi
    intro d hd
    rw [((mem_generateCopConfigs hN1 k d).mp hd).1, hkey.1]
  refine ⟨i, hi, ?_⟩
  rw [hbs]
  show (i * g.N) % 2 ^ 64 = i * g.N
  apply Nat.mod_eq_of_lt
  calc i * g.N < (generateCopConfigs g.N k).length * g.N :=
    Nat.mul_lt_mul_of_lt_of_le hi (Nat.le_refl _) (by omega)
  _ < 2 ^ 64 := hMN

/-- Retiring a robber-turn entry from the queue leaves all `doneCnt`
values unchanged: only sub-`ROBBIT` queue entries count. -/
theorem k4Inv_drop_rob {g : CRGraph} {cfgs : List (List Nat)} {st : K3State}
    {pk : Nat} {rest : List Nat} (hpk : ROBBIT ≤ pk)
    (hsz : cfgs.length * g.N < ROBBIT)
    (h : K4Inv g cfgs st (pk :: rest)) : K4Inv g cfgs st rest := by
  have hD : ∀ s, s < cfgs.length * g.N →
      doneCnt g st rest (s / g.N) (s % g.N) =
      doneCnt g st (pk :: rest) (s / g.N) (s % g.N) := by
    intro s hs
    have hN : 0 < g.N := by
      rcases Nat.eq_zero_or_pos g.N with h0 | h0
      · rw [h0, Nat.mul_zero] at hs
        omega
      · exact h0
    apply doneCnt_congr
    intro v hv
    have hvN : v < g.N := by
      rcases List.mem_cons.mp hv with rfl | hv'
      · exact Nat.mod_lt _ hN
      · exact (mem_nbrs.mp hv').1
    have hid : s / g.N * g.N + v < cfgs.length * g.N :=
      id_lt (state_div_lt hN hs) hvN
    rw [contains_cons_ne (by omega)]
  exact K4Inv.mk h.lenc h.lenr h.lens h.ccop h.crob
    (fun t ht htR => h.pcop t (List.mem_cons_of_mem pk ht) htR)
    (fun t ht htR => h.prb t (List.mem_cons_of_mem pk ht) htR)
    (List.nodup_cons.mp h.ndq).2
    h.cop01
    (fun s hs hc => by rw [hD s hs]; exact h.snc s hs hc)
    (fun s hs hc => by rw [hD s hs]; exact h.sc s hs hc)
    (fun s hs hc => by rw [hD s hs]; exact h.riff s hs hc)

/-- Retiring a cop-turn entry `s0` from the queue bumps `doneCnt` by
one exactly at the states whose robber vertex is a closed neighbour of
the robber vertex of `s0` under the same configuration — the states
the subsequent decrement fold will visit. -/
theorem k4Inv_pop_cop {g : CRGraph} {cfgs : List (List Nat)}
    (hirr : ∀ i < g.N, g.edge i i = false)
    (hsym : ∀ i < g.N, ∀ j < g.N, g.edge i j = g.edge j i)
    (hscan : ∀ v < g.N, edgeScan g v = nbrs g v)
    (hsz : cfgs.length * g.N < ROBBIT)
    {st : K3State} {rest : List Nat} {s0 : Nat} (hs0R : s0 < ROBBIT)
    (hInv : K4Inv g cfgs st (s0 :: rest)) :
    s0 < cfgs.length * g.N ∧
    MidInv g cfgs (s0 / g.N) ((s0 % g.N) :: nbrs g (s0 % g.N)) st rest := by
  have hmem0 : s0 ∈ s0 :: rest := List.mem_cons_self s0 rest
  have hs0 : s0 < cfgs.length * g.N := (hInv.pcop s0 hmem0 hs0R).2
  have hcop0 : st.cop.getD s0 0 = 1 := (hInv.pcop s0 hmem0 hs0R).1
  have hN : 0 < g.N := by
    rcases Nat.eq_zero_or_pos g.N with h0 | h0
    · rw [h0, Nat.mul_zero] at hs0
      omega
    · exact h0
  have hnin : s0 ∉ rest := (List.nodup_cons.mp hInv.ndq).1
  have hr0 : s0 % g.N < g.N := Nat.mod_lt _ hN
  have htgt : ∀ s, s < cfgs.length * g.N →
      (s ∈ ((s0 % g.N) :: nbrs g (s0 % g.N)).map (fun u => s0 / g.N * g.N + u) ↔
        (s / g.N = s0 / g.N ∧ s % g.N ∈ (s0 % g.N) :: nbrs g (s0 % g.N))) := by
    intro s hs
    constructor
    · intro h
      rw [List.mem_map] at h
      obtain ⟨u, hu, rfl⟩ := h
      have huN : u < g.N := by
        rcases List.mem_cons.mp hu with rfl | hu'
        · exact hr0
        · exact (mem_nbrs.mp hu').1
      rw [id_div hN huN, id_mod huN]
      exact ⟨rfl, hu⟩
    · intro h
      rw [List.mem_map]
      refine ⟨s % g.N, h.2, ?_⟩
      rw [← h.1]
      exact state_eta
  have hjin : ∀ s, s < cfgs.length * g.N →
      s ∈ ((s0 % g.N) :: nbrs g (s0 % g.N)).map (fun u => s0 / g.N * g.N + u) →
      doneCnt g st rest (s / g.N) (s % g.N) =
        doneCnt g st (s0 :: rest) (s / g.N) (s % g.N) + 1 := by
    intro s hs h
    obtain ⟨hcId, hrc⟩ := (htgt s hs).mp h
    have hrN : s % g.N < g.N := Nat.mod_lt _ hN
    have hr0c : s0 % g.N ∈ (s % g.N) :: nbrs g (s % g.N) :=
      (mem_closed_symm hsym hrN hr0).mp hrc
    unfold doneCnt
    apply filter_length_flip (s0 % g.N) (nodup_closed hirr (s % g.N)) hr0c
    · -- the old predicate is false at the distinguished neighbour
      have hid : s / g.N * g.N + s0 % g.N = s0 := by
        rw [hcId]
        exact state_eta
      rw [hid, contains_iff_mem.mpr hmem0]
      simp
    · -- the new predicate is true there
      have hid : s / g.N * g.N + s0 % g.N = s0 := by
        rw [hcId]
        exact state_eta
      rw [hid, contains_eq_false hnin, hcop0]
      simp
    · intro x hx hxne
      have hxN : x < g.N := by
        rcases List.mem_cons.mp hx with rfl | hx'
        · exact hrN
        · exact (mem_nbrs.mp hx').1
      have hidne : s / g.N * g.N + x ≠ s0 := by
        intro he
        rw [hcId] at he
        have := (id_inj hN hxN hr0 (by rw [he]; exact state_eta.symm)).2
        exact hxne this
      rw [contains_cons_ne hidne]
  have hjout : ∀ s, s < cfgs.length * g.N →
      s ∉ ((s0 % g.N) :: nbrs g (s0 % g.N)).map (fun u => s0 / g.N * g.N + u) →
      doneCnt g st rest (s / g.N) (s % g.N) =
        doneCnt g st (s0 :: rest) (s / g.N) (s % g.N) := by
    intro s hs h
    have hrN : s % g.N < g.N := Nat.mod_lt _ hN
    apply doneCnt_congr
    intro x hx
    have hxN : x < g.N := by
      rcases List.mem_cons.mp hx with rfl | hx'
      · exact hrN
      · exact (mem_nbrs.mp hx').1
    have hidne : s / g.N * g.N + x ≠ s0 := by
      intro he
      have hdiv := (id_inj hN hxN hr0
        (by rw [he]; exact state_eta.symm)).1
      have hmod := (id_inj hN hxN hr0
        (by rw [he]; exact state_eta.symm)).2
      apply h
      rw [htgt s hs]
      refine ⟨hdiv, ?_⟩
      subst hmod
      exact (mem_closed_symm hsym hr0 hrN).mp hx
    rw [contains_cons_ne hidne]
  have hDle : ∀ s, s < cfgs.length * g.N →
      doneCnt g st rest (s / g.N) (s % g.N) ≤ robberDeg g (s % g.N) := by
    intro s hs
    have hrN : s % g.N < g.N := Nat.mod_lt _ hN
    rw [robberDeg_eq hscan hrN]
    exact doneCnt_le g st rest (s / g.N) (s % g.N)
  refine ⟨hs0, MidInv.mk hInv.lenc hInv.lenr hInv.lens hInv.ccop hInv.crob
    (fun t ht htR => hInv.pcop t (List.mem_cons_of_mem s0 ht) htR)
    (fun t ht htR => hInv.prb t (List.mem_cons_of_mem s0 ht) htR)
    (List.nodup_cons.mp hInv.ndq).2
    hInv.cop01 ?_ ?_ ?_ ?_⟩
  · intro s hs hmemt hc
    have h1 := hInv.snc s hs hc
    have h2 := hInv.riff s hs hc
    have h3 := hjin s hs hmemt
    have h4 := hDle s hs
    refine ⟨?_, by omega, by omega⟩
    intro hrob
    have := h2.mp hrob
    omega
  · intro s hs hmemt hc
    have h1 := hInv.sc s hs hc
    have h3 := hjin s hs hmemt
    refine ⟨?_, by omega⟩
    omega
  · intro s hs hmemt hc
    have h1 := hInv.snc s hs hc
    have h2 := hInv.riff s hs hc
    have h3 := hjout s hs hmemt
    refine ⟨by omega, ?_⟩
    rw [h3]
    exact h2
  · intro s hs hmemt hc
    have h1 := hInv.sc s hs hc
    have h3 := hjout s hs hmemt
    omega

theorem doneCnt_cop_only {g : CRGraph} {st st' : K3State} {Q : List Nat}
    {cId r : Nat} (h : st'.cop = st.cop) :
    doneCnt g st' Q cId r = doneCnt g st Q cId r := by
  apply doneCnt_congr
  intro x hx
  rw [h]

/-- Appending a robber-turn entry to the queue does not change any
`doneCnt` read at a valid state. -/
theorem doneCnt_snoc_hi {g : CRGraph} {st : K3State} {Q : List Nat} {a : Nat}
    {M cId r : Nat} (hN : 0 < g.N) (hcid : cId < M) (hr : r < g.N)
    (hsz : M * g.N < ROBBIT) (ha : ROBBIT ≤ a) :
    doneCnt g st (Q ++ [a]) cId r = doneCnt g st Q cId r := by
  apply doneCnt_congr
  intro x hx
  have hxN : x < g.N := by
    rcases List.mem_cons.mp hx with rfl | hx'
    · exact hr
    · exact (mem_nbrs.mp hx').1
  have : cId * g.N + x < M * g.N := id_lt hcid hxN
  rw [contains_snoc_ne (by omega)]

theorem k4Dec_eq (p : K3State × List Nat) (ps : Nat) :
    k4Dec p ps =
      if p.1.safe.getD ps 0 = 1 then
        (⟨p.1.cop, p.1.rob.set ps 1,
          p.1.safe.set ps ((p.1.safe.getD ps 0 + 255) % 256)⟩,
          p.2 ++ [ps + ROBBIT])
      else
        (⟨p.1.cop, p.1.rob,
          p.1.safe.set ps ((p.1.safe.getD ps 0 + 255) % 256)⟩, p.2) := rfl

/-- One unguarded decrement at the next pending target: the target
moves from the pre-decrement to the post-decrement side of the
mid-fold invariant; every other state is untouched. -/
theorem k4Dec_inv {g : CRGraph} {cfgs : List (List Nat)}
    (hNle : g.N ≤ 255)
    (hirr : ∀ i < g.N, g.edge i i = false)
    (hscan : ∀ v < g.N, edgeScan g v = nbrs g v)
    (hsz : cfgs.length * g.N < ROBBIT)
    {cId0 : Nat} (hcid : cId0 < cfgs.length)
    {v : Nat} (hv : v < g.N) {vs : List Nat}
    (hnin : (cId0 * g.N + v) ∉ vs.map (fun u => cId0 * g.N + u))
    {p : K3State × List Nat} {rest : List Nat}
    (hmid : MidInv g cfgs cId0 (v :: vs) p.1 (rest ++ p.2)) :
    MidInv g cfgs cId0 vs (k4Dec p (cId0 * g.N + v)).1
      (rest ++ (k4Dec p (cId0 * g.N + v)).2) := by
  have hN : 0 < g.N := by omega
  have hs' : cId0 * g.N + v < cfgs.length * g.N := id_lt hcid hv
  have hlen : cId0 * g.N + v < p.1.safe.length := by rw [hmid.lens]; exact hs'
  have hlenr : cId0 * g.N + v < p.1.rob.length := by rw [hmid.lenr]; exact hs'
  have hdiv : (cId0 * g.N + v) / g.N = cId0 := id_div hN hv
  have hmod : (cId0 * g.N + v) % g.N = v := id_mod hv
  have htgt_cons : (v :: vs).map (fun u => cId0 * g.N + u) =
      (cId0 * g.N + v) :: vs.map (fun u => cId0 * g.N + u) := List.map_cons _ _ _
  have hmemv : cId0 * g.N + v ∈ (v :: vs).map (fun u => cId0 * g.N + u) := by
    rw [htgt_cons]
    exact List.mem_cons_self _ _
  have hDle : doneCnt g p.1 (rest ++ p.2) cId0 v ≤ (v :: nbrs g v).length :=
    doneCnt_le _ _ _ _ _
  have hclosedle : (v :: nbrs g v).length ≤ g.N := closed_length_le hirr hv
  have hrdeg : robberDeg g v = (v :: nbrs g v).length := robberDeg_eq hscan hv
  by_cases hcau : Caught g cfgs (cId0 * g.N + v)
  case pos =>
    -- capture target: the wrapped counter is never 1, so no fire
    have htc := hmid.tc (cId0 * g.N + v) hs' hmemv hcau
    rw [hdiv, hmod] at htc
    obtain ⟨hsafe, hD1⟩ := htc
    have hold : ¬ p.1.safe.getD (cId0 * g.N + v) 0 = 1 := by omega
    rw [k4Dec_eq, if_neg hold]
    dsimp only
    have hDeq : ∀ s, doneCnt g
        ⟨p.1.cop, p.1.rob,
          p.1.safe.set (cId0 * g.N + v)
            ((p.1.safe.getD (cId0 * g.N + v) 0 + 255) % 256)⟩
        (rest ++ p.2) (s / g.N) (s % g.N) =
        doneCnt g p.1 (rest ++ p.2) (s / g.N) (s % g.N) := by
      intro s
      exact doneCnt_cop_only rfl
    refine MidInv.mk hmid.lenc hmid.lenr (by simp [hmid.lens]) hmid.ccop hmid.crob
      hmid.pcop hmid.prb hmid.ndq hmid.cop01 ?_ ?_ ?_ ?_
    · intro s hs hmemt hc
      have hsne : s ≠ cId0 * g.N + v := fun he => hnin (he ▸ hmemt)
      have h0 := hmid.tnc s hs (by rw [htgt_cons]; exact List.mem_cons_of_mem _ hmemt) hc
      rw [hDeq s]
      refine ⟨h0.1, ?_, h0.2.2⟩
      rw [getD_set_ne (fun he => hsne he.symm)]
      exact h0.2.1
    · intro s hs hmemt hc
      have hsne : s ≠ cId0 * g.N + v := fun he => hnin (he ▸ hmemt)
      have h0 := hmid.tc s hs (by rw [htgt_cons]; exact List.mem_cons_of_mem _ hmemt) hc
      rw [hDeq s, getD_set_ne (fun he => hsne he.symm)]
      exact h0
    · intro s hs hmemt hc
      by_cases hsp : s = cId0 * g.N + v
      · exact absurd (hsp ▸ hcau) hc
      · have h0 := hmid.onc s hs
          (fun hm => hmemt (by
            rw [htgt_cons] at hm
            rcases List.mem_cons.mp hm with he | hm'
            · exact absurd he hsp
            · exact hm')) hc
        rw [hDeq s, getD_set_ne (fun he => hsp he.symm)]
        exact h0
    · intro s hs hmemt hc
      by_cases hsp : s = cId0 * g.N + v
      · subst hsp
        rw [hDeq _, hdiv, hmod, getD_set_self hlen]
        omega
      · have h0 := hmid.oc s hs
          (fun hm => hmemt (by
            rw [htgt_cons] at hm
            rcases List.mem_cons.mp hm with he | hm'
            · exact absurd he hsp
            · exact hm')) hc
        rw [hDeq s, getD_set_ne (fun he => hsp he.symm)]
        exact h0
  case neg =>
    have htn := hmid.tnc (cId0 * g.N + v) hs' hmemv hcau
    rw [hdiv, hmod] at htn
    obtain ⟨hrob, hsafe, hD1⟩ := htn
    by_cases hfire : p.1.safe.getD (cId0 * g.N + v) 0 = 1
    case pos =>
      -- fire: counter hits zero, robber flag set, entry pushed
      have hDrdeg : doneCnt g p.1 (rest ++ p.2) cId0 v = robberDeg g v := by omega
      rw [k4Dec_eq, if_pos hfire]
      dsimp only
      have hnotin : cId0 * g.N + v + ROBBIT ∉ rest ++ p.2 := by
        intro hin
        have h1 := (hmid.prb (cId0 * g.N + v + ROBBIT) hin (Nat.le_add_left _ _)).1
        have heq : cId0 * g.N + v + ROBBIT - ROBBIT = cId0 * g.N + v := by omega
        rw [heq] at h1
        exact hrob h1
      have hDeq : ∀ s, s < cfgs.length * g.N → doneCnt g
          ⟨p.1.cop, p.1.rob.set (cId0 * g.N + v) 1,
            p.1.safe.set (cId0 * g.N + v)
              ((p.1.safe.getD (cId0 * g.N + v) 0 + 255) % 256)⟩
          (rest ++ (p.2 ++ [cId0 * g.N + v + ROBBIT])) (s / g.N) (s % g.N) =
          doneCnt g p.1 (rest ++ p.2) (s / g.N) (s % g.N) := by
        intro s hs
        rw [← List.append_assoc,
          doneCnt_snoc_hi hN (state_div_lt hN hs) (Nat.mod_lt _ hN) hsz
            (Nat.le_add_left _ _)]
        exact doneCnt_cop_only rfl
      refine MidInv.mk hmid.lenc (by simp [hmid.lenr]) (by simp [hmid.lens])
        hmid.ccop ?_ ?_ ?_ ?_ hmid.cop01 ?_ ?_ ?_ ?_
      · intro s hs hc
        exact getD_set_one (hmid.crob s hs hc)
      · intro t ht htR
        rw [← List.append_assoc] at ht
        rcases List.mem_append.mp ht with ht' | ht'
        · exact hmid.pcop t ht' htR
        · rw [List.mem_singleton] at ht'
          subst ht'
          omega
      · intro t ht htR
        rw [← List.append_assoc] at ht
        rcases List.mem_append.mp ht with ht' | ht'
        · exact ⟨getD_set_one (hmid.prb t ht' htR).1, (hmid.prb t ht' htR).2⟩
        · rw [List.mem_singleton] at ht'
          subst ht'
          have heq : cId0 * g.N + v + ROBBIT - ROBBIT = cId0 * g.N + v := by omega
          rw [heq]
          exact ⟨getD_set_self hlenr, hs'⟩
      · rw [← List.append_assoc]
        exact nodup_snoc hmid.ndq hnotin
      · intro s hs hmemt hc
        have hsne : s ≠ cId0 * g.N + v := fun he => hnin (he ▸ hmemt)
        have h0 := hmid.tnc s hs (by rw [htgt_cons]; exact List.mem_cons_of_mem _ hmemt) hc
        rw [hDeq s hs]
        refine ⟨?_, ?_, h0.2.2⟩
        · rw [getD_set_ne (fun he => hsne he.symm)]
          exact h0.1
        · rw [getD_set_ne (fun he => hsne he.symm)]
          exact h0.2.1
      · intro s hs hmemt hc
        have hsne : s ≠ cId0 * g.N + v := fun he => hnin (he ▸ hmemt)
        have h0 := hmid.tc s hs (by rw [htgt_cons]; exact List.mem_cons_of_mem _ hmemt) hc
        rw [hDeq s hs, getD_set_ne (fun he => hsne he.symm)]
        exact h0
      · intro s hs hmemt hc
        by_cases hsp : s = cId0 * g.N + v
        · subst hsp
          rw [hDeq _ hs, hdiv, hmod, getD_set_self hlen, getD_set_self hlenr]
          constructor
          · omega
          · constructor
            · intro _
              omega
            · intro _
              rfl
        · have h0 := hmid.onc s hs
            (fun hm => hmemt (by
              rw [htgt_cons] at hm
              rcases List.mem_cons.mp hm with he | hm'
              · exact absurd he hsp
              · exact hm')) hc
          rw [hDeq s hs, getD_set_ne (fun he => hsp he.symm),
            getD_set_ne (fun he => hsp he.symm)]
          exact h0
      · intro s hs hmemt hc
        by_cases hsp : s = cId0 * g.N + v
        · exact absurd (hsp ▸ hcau) (fun hh => hh hc)
        · have h0 := hmid.oc s hs
            (fun hm => hmemt (by
              rw [htgt_cons] at hm
              rcases List.mem_cons.mp hm with he | hm'
              · exact absurd he hsp
              · exact hm')) hc
          rw [hDeq s hs, getD_set_ne (fun he => hsp he.symm)]
          exact h0
    case neg =>
      -- no fire: counter stays positive
      have hDlt : doneCnt g p.1 (rest ++ p.2) cId0 v < robberDeg g v := by omega
      rw [k4Dec_eq, if_neg hfire]
      dsimp only
      have hDeq : ∀ s, doneCnt g
          ⟨p.1.cop, p.1.rob,
            p.1.safe.set (cId0 * g.N + v)
              ((p.1.safe.getD (cId0 * g.N + v) 0 + 255) % 256)⟩
          (rest ++ p.2) (s / g.N) (s % g.N) =
          doneCnt g p.1 (rest ++ p.2) (s / g.N) (s % g.N) := by
        intro s
        exact doneCnt_cop_only rfl
      refine MidInv.mk hmid.lenc hmid.lenr (by simp [hmid.lens]) hmid.ccop hmid.crob
        hmid.pcop hmid.prb hmid.ndq hmid.cop01 ?_ ?_ ?_ ?_
      · intro s hs hmemt hc
        have hsne : s ≠ cId0 * g.N + v := fun he => hnin (he ▸ hmemt)
        have h0 := hmid.tnc s hs (by rw [htgt_cons]; exact List.mem_cons_of_mem _ hmemt) hc
        rw [hDeq s]
        refine ⟨h0.1, ?_, h0.2.2⟩
        rw [getD_set_ne (fun he => hsne he.symm)]
        exact h0.2.1
      · intro s hs hmemt hc
        have hsne : s ≠ cId0 * g.N + v := fun he => hnin (he ▸ hmemt)
        have h0 := hmid.tc s hs (by rw [htgt_cons]; exact List.mem_cons_of_mem _ hmemt) hc
        rw [hDeq s, getD_set_ne (fun he => hsne he.symm)]
        exact h0
      · intro s hs hmemt hc
        by_cases hsp : s = cId0 * g.N + v
        · subst hsp
          rw [hDeq _, hdiv, hmod, getD_set_self hlen]
          constructor
          · omega
          · constructor
            · intro h1
              exact absurd h1 hrob
            · intro h1
              omega
        · have h0 := hmid.onc s hs
            (fun hm => hmemt (by
              rw [htgt_cons] at hm
              rcases List.mem_cons.mp hm with he | hm'
              · exact absurd he hsp
              · exact hm')) hc
          rw [hDeq s, getD_set_ne (fun he => hsp he.symm)]
          exact h0
      · intro s hs hmemt hc
        by_cases hsp : s = cId0 * g.N + v
        · exact absurd (hsp ▸ hcau) (fun hh => hh hc)
        · have h0 := hmid.oc s hs
            (fun hm => hmemt (by
              rw [htgt_cons] at hm
              rcases List.mem_cons.mp hm with he | hm'
              · exact absurd he hsp
              · exact hm')) hc
          rw [hDeq s, getD_set_ne (fun he => hsp he.symm)]
          exact h0

theorem k4Entry_rob_eq (g : CRGraph) (trans : List (List Nat))
    (acc : K3State × List Nat) {pk : Nat} (h1 : ROBBIT ≤ pk)
    (h2 : pk < 2 * ROBBIT) :
    k4Entry g trans acc pk =
      (trans.getD ((pk - ROBBIT) / g.N) []).foldl
        (fun a t => k4CopClaim a ((t + (pk - ROBBIT) % g.N) % 2 ^ 64)) acc := by
  have hmod : pk % ROBBIT = pk - ROBBIT := by
    rw [Nat.mod_eq_sub_mod h1, Nat.mod_eq_of_lt (by omega)]
  simp only [k4Entry]
  rw [hmod, if_pos h1]

theorem k4Entry_cop_eq (g : CRGraph) (trans : List (List Nat))
    (acc : K3State × List Nat) {pk : Nat} (h1 : pk < ROBBIT) :
    k4Entry g trans acc pk =
      (edgeScan g (pk % g.N)).foldl (fun a u => k4Dec a (pk / g.N * g.N + u))
        (k4Dec acc (pk / g.N * g.N + (pk % g.N))) := by
  have hmod : pk % ROBBIT = pk := Nat.mod_eq_of_lt h1
  simp only [k4Entry]
  rw [hmod, if_neg (by omega)]

theorem k4DecFold_inv {g : CRGraph} {cfgs : List (List Nat)}
    (hNle : g.N ≤ 255)
    (hirr : ∀ i < g.N, g.edge i i = false)
    (hscan : ∀ v < g.N, edgeScan g v = nbrs g v)
    (hsz : cfgs.length * g.N < ROBBIT)
    {cId0 : Nat} (hcid : cId0 < cfgs.length) :
    ∀ (vs : List Nat) (p : K3State × List Nat) (rest : List Nat),
      (∀ u ∈ vs, u < g.N) → vs.Nodup →
      MidInv g cfgs cId0 vs p.1 (rest ++ p.2) →
      K4Inv g cfgs (vs.foldl (fun a u => k4Dec a (cId0 * g.N + u)) p).1
        (rest ++ (vs.foldl (fun a u => k4Dec a (cId0 * g.N + u)) p).2) := by
  intro vs
  induction vs with
  | nil => intro p rest _ _ h; exact midInv_nil h
  | cons u vs ih =>
    intro p rest hlt hnd h
    rw [List.foldl_cons]
    apply ih (k4Dec p (cId0 * g.N + u)) rest
      (fun x hx => hlt x (List.mem_cons_of_mem u hx))
      (List.nodup_cons.mp hnd).2
    apply k4Dec_inv hNle hirr hscan hsz hcid (hlt u (List.mem_cons_self u vs)) ?_ h
    intro hm
    rw [List.mem_map] at hm
    obtain ⟨x, hx, he⟩ := hm
    have hxu : x = u := Nat.add_left_cancel he
    subst hxu
    exact (List.nodup_cons.mp hnd).1 hx

/-- Processing one frontier entry preserves the wave invariant. -/
theorem k4Entry_inv {g : CRGraph} {k : Nat}
    (hN1 : 1 ≤ g.N) (hNle : g.N ≤ 255)
    (hirr : ∀ i < g.N, g.edge i i = false)
    (hsym : ∀ i < g.N, ∀ j < g.N, g.edge i j = g.edge j i)
    (hscan : ∀ v < g.N, edgeScan g v = nbrs g v)
    (hsz : (generateCopConfigs g.N k).length * g.N < ROBBIT)
    {p : K3State × List Nat} {rest : List Nat} {pk : Nat}
    (hInv : K4Inv g (generateCopConfigs g.N k) p.1 ((pk :: rest) ++ p.2)) :
    K4Inv g (generateCopConfigs g.N k)
      (k4Entry g (buildTransitions3 g (generateCopConfigs g.N k)) p pk).1
      (rest ++
        (k4Entry g (buildTransitions3 g (generateCopConfigs g.N k)) p pk).2) := by
  have hN : 0 < g.N := hN1
  have hRlt : ROBBIT < 2 ^ 64 := by
    unfold ROBBIT
    norm_num
  rw [List.cons_append] at hInv
  by_cases hpkR : ROBBIT ≤ pk
  case pos =>
    have hprb := hInv.prb pk (List.mem_cons_self _ _) hpkR
    obtain ⟨hrob1, hlt⟩ := hprb
    have hpk2 : pk < 2 * ROBBIT := by omega
    rw [k4Entry_rob_eq _ _ _ hpkR hpk2]
    have hInv' := k4Inv_drop_rob hpkR hsz hInv
    have hcidlt : (pk - ROBBIT) / g.N < (generateCopConfigs g.N k).length :=
      state_div_lt hN hlt
    have hrow : (buildTransitions3 g (generateCopConfigs g.N k)).getD
        ((pk - ROBBIT) / g.N) [] =
        buildRow g (generateCopConfigs g.N k)
          ((generateCopConfigs g.N k)[(pk - ROBBIT) / g.N]) := by
      unfold buildTransitions3
      rw [List.getD_eq_getElem _ _ (by rw [List.length_map]; exact hcidlt)]
      exact List.getElem_map _
    rw [← List.foldl_map]
    apply k4ClaimFold_inv hsz _ p rest _ hInv'
    intro x hx
    rw [List.mem_map] at hx
    obtain ⟨t, ht, rfl⟩ := hx
    rw [hrow] at ht
    obtain ⟨nid, hnid, rfl⟩ := buildRow_valid hN1 hNle hscan (by omega)
      (List.getElem_mem hcidlt) t ht
    have hr0 : (pk - ROBBIT) % g.N < g.N := Nat.mod_lt _ hN
    have hlt2 : nid * g.N + (pk - ROBBIT) % g.N <
        (generateCopConfigs g.N k).length * g.N := id_lt hnid hr0
    rw [Nat.mod_eq_of_lt (by omega)]
    exact hlt2
  case neg =>
    have hpkR' : pk < ROBBIT := by omega
    rw [k4Entry_cop_eq _ _ _ hpkR']
    obtain ⟨hs0, hmid⟩ := k4Inv_pop_cop hirr hsym hscan hsz hpkR' hInv
    have hfold : (edgeScan g (pk % g.N)).foldl
        (fun a u => k4Dec a (pk / g.N * g.N + u))
        (k4Dec p (pk / g.N * g.N + (pk % g.N))) =
        ((pk % g.N) :: edgeScan g (pk % g.N)).foldl
          (fun a u => k4Dec a (pk / g.N * g.N + u)) p := by
      rw [List.foldl_cons]
    rw [hfold, hscan _ (Nat.mod_lt _ hN)]
    exact k4DecFold_inv hNle hirr hscan hsz (state_div_lt hN hs0)
      ((pk % g.N) :: nbrs g (pk % g.N)) p rest
      (fun u hu => by
        rcases List.mem_cons.mp hu with rfl | hu'
        · exact Nat.mod_lt _ hN
        · exact (mem_nbrs.mp hu').1)
      (nodup_closed hirr _) hmid

theorem k4WaveFold_inv {g : CRGraph} {k : Nat}
    (hN1 : 1 ≤ g.N) (hNle : g.N ≤ 255)
    (hirr : ∀ i < g.N, g.edge i i = false)
    (hsym : ∀ i < g.N, ∀ j < g.N, g.edge i j = g.edge j i)
    (hscan : ∀ v < g.N, edgeScan g v = nbrs g v)
    (hsz : (generateCopConfigs g.N k).length * g.N < ROBBIT) :
    ∀ (F : List Nat) (q : K3State × List Nat),
      K4Inv g (generateCopConfigs g.N k) q.1 (F ++ q.2) →
      K4Inv g (generateCopConfigs g.N k)
        (F.foldl (k4Entry g (buildTransitions3 g (generateCopConfigs g.N k))) q).1
        (F.foldl (k4Entry g (buildTransitions3 g (generateCopConfigs g.N k))) q).2 := by
  intro F
  induction F with
  | nil => intro q h; exact h
  | cons pk F ih =>
    intro q h
    rw [List.foldl_cons]
    exact ih _ (k4Entry_inv hN1 hNle hirr hsym hscan hsz h)

/-- One wave preserves the invariant. -/
theorem k4Wave_inv {g : CRGraph} {k : Nat}
    (hN1 : 1 ≤ g.N) (hNle : g.N ≤ 255)
    (hirr : ∀ i < g.N, g.edge i i = false)
    (hsym : ∀ i < g.N, ∀ j < g.N, g.edge i j = g.edge j i)
    (hscan : ∀ v < g.N, edgeScan g v = nbrs g v)
    (hsz : (generateCopConfigs g.N k).length * g.N < ROBBIT)
    {p : K3State × List Nat}
    (h : K4Inv g (generateCopConfigs g.N k) p.1 p.2) :
    K4Inv g (generateCopConfigs g.N k)
      (k4Wave g (buildTransitions3 g (generateCopConfigs g.N k)) p).1
      (k4Wave g (buildTransitions3 g (generateCopConfigs g.N k)) p).2 := by
  unfold k4Wave
  apply k4WaveFold_inv hN1 hNle hirr hsym hscan hsz p.2 (p.1, [])
  rw [List.append_nil]
  exact h

theorem getD_rep0 (n s : Nat) : (List.replicate n (0 : Nat)).getD s 0 = 0 := by
  by_cases h : s < n
  · rw [List.getD_eq_getElem _ _ (by simpa using h)]
    simp
  · rw [List.getD_eq_default _ _ (by simpa using h)]

theorem k3InitBody_eq (g : CRGraph) (cfgs : List (List Nat))
    (P : K3State × List Nat) (s : Nat) :
    k3InitBody g cfgs P s =
      if (cfgs.getD (s / g.N) []).contains (s % g.N) = true then
        (⟨P.1.cop.set s 1, P.1.rob.set s 1, P.1.safe.set s 0⟩,
          P.2 ++ [s, s + ROBBIT])
      else
        (⟨P.1.cop, P.1.rob, P.1.safe.set s (robberDeg g (s % g.N) % 256)⟩,
          P.2) := rfl

theorem k3Init_prefix (g : CRGraph) (cfgs : List (List Nat)) :
    ∀ m, m ≤ cfgs.length * g.N →
      InitSpec g cfgs m ((List.range m).foldl (k3InitBody g cfgs)
        (⟨List.replicate (cfgs.length * g.N) 0,
          List.replicate (cfgs.length * g.N) 0,
          List.replicate (cfgs.length * g.N) 0⟩, [])) := by
  intro m
  induction m with
  | zero =>
    intro _
    refine ⟨by simp, by simp, by simp, ?_, ?_, ?_, by simp⟩
    · intro s
      rw [if_neg (fun hh => by omega)]
      exact getD_rep0 _ s
    · intro s
      rw [if_neg (fun hh => by omega)]
      exact getD_rep0 _ s
    · intro s
      rw [if_neg (fun hh => by omega)]
      exact getD_rep0 _ s
  | succ m ih =>
    intro hm1
    obtain ⟨h1, h2, h3, h4, h5, h6, h7⟩ := ih (by omega)
    rw [List.range_succ, List.foldl_append, List.foldl_cons, List.foldl_nil,
      k3InitBody_eq]
    by_cases hcm : (cfgs.getD (m / g.N) []).contains (m % g.N) = true
    case pos =>
      rw [if_pos hcm]
      have hmlen1 : m < ((List.range m).foldl (k3InitBody g cfgs)
          (⟨List.replicate (cfgs.length * g.N) 0,
            List.replicate (cfgs.length * g.N) 0,
            List.replicate (cfgs.length * g.N) 0⟩, [])).1.cop.length := by
        rw [h1]
        omega
      have hmlen2 : m < ((List.range m).foldl (k3InitBody g cfgs)
          (⟨List.replicate (cfgs.length * g.N) 0,
            List.replicate (cfgs.length * g.N) 0,
            List.replicate (cfgs.length * g.N) 0⟩, [])).1.rob.length := by
        rw [h2]
        omega
      have hmlen3 : m < ((List.range m).foldl (k3InitBody g cfgs)
          (⟨List.replicate (cfgs.length * g.N) 0,
            List.replicate (cfgs.length * g.N) 0,
            List.replicate (cfgs.length * g.N) 0⟩, [])).1.safe.length := by
        rw [h3]
        omega
      refine ⟨by simpa using h1, by simpa using h2, by simpa using h3, ?_, ?_, ?_, ?_⟩
      · intro s
        by_cases hsm : s = m
        · subst hsm
          rw [getD_set_self hmlen1, if_pos ⟨by omega, hcm⟩]
        · rw [getD_set_ne (fun he => hsm he.symm), h4 s]
          by_cases hC : (cfgs.getD (s / g.N) []).contains (s % g.N) = true
          · by_cases hsm' : s < m
            · rw [if_pos ⟨hsm', hC⟩, if_pos ⟨by omega, hC⟩]
            · rw [if_neg (fun hh => hsm' hh.1), if_neg (fun hh => absurd hh.1 (by omega))]
          · rw [if_neg (fun hh => hC hh.2), if_neg (fun hh => hC hh.2)]
      · intro s
        by_cases hsm : s = m
        · subst hsm
          rw [getD_set_self hmlen2, if_pos ⟨by omega, hcm⟩]
        · rw [getD_set_ne (fun he => hsm he.symm), h5 s]
          by_cases hC : (cfgs.getD (s / g.N) []).contains (s % g.N) = true
          · by_cases hsm' : s < m
            · rw [if_pos ⟨hsm', hC⟩, if_pos ⟨by omega, hC⟩]
            · rw [if_neg (fun hh => hsm' hh.1), if_neg (fun hh => absurd hh.1 (by omega))]
          · rw [if_neg (fun hh => hC hh.2), if_neg (fun hh => hC hh.2)]
      · intro s
        by_cases hsm : s = m
        · subst hsm
          rw [getD_set_self hmlen3, if_neg (fun hh => hh.2 hcm)]
        · rw [getD_set_ne (fun he => hsm he.symm), h6 s]
          by_cases hC : (cfgs.getD (s / g.N) []).contains (s % g.N) = true
          · rw [if_neg (fun hh => hh.2 hC), if_neg (fun hh => hh.2 hC)]
          · by_cases hsm' : s < m
            · rw [if_pos ⟨hsm', hC⟩, if_pos ⟨by omega, hC⟩]
            · rw [if_neg (fun hh => hsm' hh.1), if_neg (fun hh => absurd hh.1 (by omega))]
      · rw [h7, List.range_succ, List.filter_append, List.flatMap_append]
        have hmem : m % g.N ∈ cfgs[m / g.N]?.getD [] := by
          rw [← List.getD_eq_getElem?_getD]
          exact contains_iff_mem.mp hcm
        simp [hmem]
    case neg =>
      rw [if_neg hcm]
      have hmlen3 : m < ((List.range m).foldl (k3InitBody g cfgs)
          (⟨List.replicate (cfgs.length * g.N) 0,
            List.replicate (cfgs.length * g.N) 0,
            List.replicate (cfgs.length * g.N) 0⟩, [])).1.safe.length := by
        rw [h3]
        omega
      refine ⟨h1, h2, by simpa using h3, ?_, ?_, ?_, ?_⟩
      · intro s
        rw [h4 s]
        by_cases hsm : s = m
        · subst hsm
          rw [if_neg (fun hh => by omega), if_neg (fun hh => hcm hh.2)]
        · by_cases hC : (cfgs.getD (s / g.N) []).contains (s % g.N) = true
          · by_cases hsm' : s < m
            · rw [if_pos ⟨hsm', hC⟩, if_pos ⟨by omega, hC⟩]
            · rw [if_neg (fun hh => hsm' hh.1), if_neg (fun hh => absurd hh.1 (by omega))]
          · rw [if_neg (fun hh => hC hh.2), if_neg (fun hh => hC hh.2)]
      · intro s
        rw [h5 s]
        by_cases hsm : s = m
        · subst hsm
          rw [if_neg (fun hh => by omega), if_neg (fun hh => hcm hh.2)]
        · by_cases hC : (cfgs.getD (s / g.N) []).contains (s % g.N) = true
          · by_cases hsm' : s < m
            · rw [if_pos ⟨hsm', hC⟩, if_pos ⟨by omega, hC⟩]
            · rw [if_neg (fun hh => hsm' hh.1), if_neg (fun hh => absurd hh.1 (by omega))]
          · rw [if_neg (fun hh => hC hh.2), if_neg (fun hh => hC hh.2)]
      · intro s
        by_cases hsm : s = m
        · subst hsm
          rw [getD_set_self hmlen3, if_pos ⟨by omega, hcm⟩]
        · rw [getD_set_ne (fun he => hsm he.symm), h6 s]
          by_cases hC : (cfgs.getD (s / g.N) []).contains (s % g.N) = true
          · rw [if_neg (fun hh => hh.2 hC), if_neg (fun hh => hh.2 hC)]
          · by_cases hsm' : s < m
            · rw [if_pos ⟨hsm', hC⟩, if_pos ⟨by omega, hC⟩]
            · rw [if_neg (fun hh => hsm' hh.1), if_neg (fun hh => absurd hh.1 (by omega))]
      · rw [h7, List.range_succ, List.filter_append, List.flatMap_append]
        have hmem : ¬ m % g.N ∈ cfgs[m / g.N]?.getD [] := by
          rw [← List.getD_eq_getElem?_getD]
          exact fun hm => hcm (contains_iff_mem.mpr hm)
        simp [hmem]

theorem k3Init_spec4 (g : CRGraph) (cfgs : List (List Nat)) :
    InitSpec g cfgs (cfgs.length * g.N) (k3Init g cfgs) := by
  unfold k3Init
  exact k3Init_prefix g cfgs _ (Nat.le_refl _)

/-- The wave invariant holds right after `initializeCaptures`. -/
theorem k4Init_inv {g : CRGraph} {cfgs : List (List Nat)}
    (hNle : g.N ≤ 255)
    (hirr : ∀ i < g.N, g.edge i i = false)
    (hscan : ∀ v < g.N, edgeScan g v = nbrs g v)
    (hsz : cfgs.length * g.N < ROBBIT) :
    K4Inv g cfgs (k3Init g cfgs).1 (k3Init g cfgs).2 := by
  obtain ⟨h1, h2, h3, h4, h5, h6, h7⟩ := k3Init_spec4 g cfgs
  have hR : 0 < ROBBIT := by
    unfold ROBBIT
    norm_num
  have hQmem : ∀ t, t ∈ (k3Init g cfgs).2 ↔
      ∃ s, s < cfgs.length * g.N ∧
        (cfgs.getD (s / g.N) []).contains (s % g.N) = true ∧
        (t = s ∨ t = s + ROBBIT) := by
    intro t
    rw [h7, List.mem_flatMap]
    constructor
    · rintro ⟨s, hsf, hts⟩
      rw [List.mem_filter, List.mem_range] at hsf
      refine ⟨s, hsf.1, hsf.2, ?_⟩
      rcases List.mem_cons.mp hts with rfl | hts'
      · exact Or.inl rfl
      · rw [List.mem_singleton] at hts'
        exact Or.inr hts'
    · rintro ⟨s, hs1, hs2, hts⟩
      refine ⟨s, ?_, ?_⟩
      · rw [List.mem_filter, List.mem_range]
        exact ⟨hs1, hs2⟩
      · rcases hts with rfl | rfl
        · exact List.mem_cons_self _ _
        · exact List.mem_cons_of_mem _ (List.mem_singleton_self _)
  have hD0 : ∀ s, s < cfgs.length * g.N →
      doneCnt g (k3Init g cfgs).1 (k3Init g cfgs).2 (s / g.N) (s % g.N) = 0 := by
    intro s hs
    have hN : 0 < g.N := by
      rcases Nat.eq_zero_or_pos g.N with h0 | h0
      · rw [h0, Nat.mul_zero] at hs
        omega
      · exact h0
    unfold doneCnt
    have hfil : ((s % g.N) :: nbrs g (s % g.N)).filter
        (fun x => (k3Init g cfgs).1.cop.getD (s / g.N * g.N + x) 0 == 1 &&
          !((k3Init g cfgs).2.contains (s / g.N * g.N + x))) = [] := by
      rw [List.filter_eq_nil_iff]
      intro x hx
      have hxN : x < g.N := by
        rcases List.mem_cons.mp hx with rfl | hx'
        · exact Nat.mod_lt _ hN
        · exact (mem_nbrs.mp hx').1
      have hid : s / g.N * g.N + x < cfgs.length * g.N :=
        id_lt (state_div_lt hN hs) hxN
      by_cases hcop : (cfgs.getD ((s / g.N * g.N + x) / g.N) []).contains
          ((s / g.N * g.N + x) % g.N) = true
      · -- the flagged state is a capture and hence still pending
        have hin : (s / g.N * g.N + x) ∈ (k3Init g cfgs).2 :=
          (hQmem _).mpr ⟨s / g.N * g.N + x, hid, hcop, Or.inl rfl⟩
        rw [contains_iff_mem.mpr hin]
        simp
      · rw [h4, if_neg (fun hh => hcop hh.2)]
        simp
    rw [hfil]
    rfl
  refine K4Inv.mk h1 h2 h3 ?_ ?_ ?_ ?_ ?_ ?_ ?_ ?_ ?_
  · intro s hs hc
    rw [h4, if_pos ⟨hs, contains_iff_mem.mpr hc⟩]
  · intro s hs hc
    rw [h5, if_pos ⟨hs, contains_iff_mem.mpr hc⟩]
  · intro t ht htR
    obtain ⟨s, hs1, hs2, hts⟩ := (hQmem t).mp ht
    rcases hts with rfl | rfl
    · exact ⟨by rw [h4, if_pos ⟨hs1, hs2⟩], hs1⟩
    · omega
  · intro t ht htR
    obtain ⟨s, hs1, hs2, hts⟩ := (hQmem t).mp ht
    rcases hts with rfl | rfl
    · omega
    · have heq : s + ROBBIT - ROBBIT = s := by omega
      rw [heq]
      exact ⟨by rw [h5, if_pos ⟨hs1, hs2⟩], hs1⟩
  · -- queue distinct: two fresh entries per capture state, in range order
    rw [h7]
    have hpw : ((List.range (cfgs.length * g.N)).filter
        (fun s => (cfgs.getD (s / g.N) []).contains (s % g.N))).Pairwise (· < ·) :=
      List.Pairwise.sublist (List.filter_sublist _) (by
        rw [List.range_eq_range']
        exact pairwise_lt_range' _ 0)
    apply pairwise_flatMap
    · intro a _
      refine List.pairwise_cons.mpr ⟨?_, List.pairwise_singleton _ _⟩
      intro y hy
      rw [List.mem_singleton] at hy
      subst hy
      omega
    · apply List.Pairwise.imp_of_mem ?_ hpw
      intro a b ha hb hab
      have haM : a < cfgs.length * g.N := List.mem_range.mp (List.mem_of_mem_filter ha)
      have hbM : b < cfgs.length * g.N := List.mem_range.mp (List.mem_of_mem_filter hb)
      intro x hx y hy
      have hx' : x = a ∨ x = a + ROBBIT := by
        rcases List.mem_cons.mp hx with rfl | hx1
        · exact Or.inl rfl
        · rw [List.mem_singleton] at hx1
          exact Or.inr hx1
      have hy' : y = b ∨ y = b + ROBBIT := by
        rcases List.mem_cons.mp hy with rfl | hy1
        · exact Or.inl rfl
        · rw [List.mem_singleton] at hy1
          exact Or.inr hy1
      rcases hx' with rfl | rfl <;> rcases hy' with rfl | rfl <;> omega
  · intro s
    rw [h4]
    by_cases hcond : s < cfgs.length * g.N ∧
        (cfgs.getD (s / g.N) []).contains (s % g.N) = true
    · rw [if_pos hcond]
      exact Or.inr rfl
    · rw [if_neg hcond]
      exact Or.inl rfl
  · intro s hs hc
    have hN : 0 < g.N := by
      rcases Nat.eq_zero_or_pos g.N with h0 | h0
      · rw [h0, Nat.mul_zero] at hs
        omega
      · exact h0
    have hrN : s % g.N < g.N := Nat.mod_lt _ hN
    have hrd : robberDeg g (s % g.N) ≤ 255 := by
      rw [robberDeg_eq hscan hrN]
      have := closed_length_le hirr hrN
      omega
    rw [hD0 s hs, h6,
      if_pos ⟨hs, fun hct => hc (contains_iff_mem.mp hct)⟩,
      Nat.mod_eq_of_lt (by omega)]
    omega
  · intro s hs hc
    rw [hD0 s hs, h6, if_neg (fun hh => hh.2 (contains_iff_mem.mpr hc))]
  · intro s hs hc
    rw [hD0 s hs, h5, if_neg (fun hh => hc (contains_iff_mem.mp hh.2))]
    have hrd : 1 ≤ robberDeg g (s % g.N) := by
      unfold robberDeg
      omega
    constructor
    · intro h0
      omega
    · intro h0
      omega

/-- Supporting result (not itself a spec claim): in the frontier
solver of `k_cops_4.cpp`, after initialization and after every wave,
a **non-capture** state `(C, r)` has `robberTurnWins(C,r) = 1` iff
`robberSafeMoves(C,r) = 0` — provided the adjacency oracle is
irreflexive and symmetric, every sentinel row scan is clean (no
max-degree row spills into a non-empty row), `N ≤ 255`, and the state
space stays below the robber-turn bit.  The clean-scan proviso is
essential: on the paw graph the spilled scans deliver foreign
decrements and the equivalence fails even at non-capture states. -/
theorem k4_cleanScan_invariant {g : CRGraph} {k : Nat}
    (hN1 : 1 ≤ g.N) (hNle : g.N ≤ 255)
    (hirr : ∀ i < g.N, g.edge i i = false)
    (hsym : ∀ i < g.N, ∀ j < g.N, g.edge i j = g.edge j i)
    (hscan : ∀ v < g.N, edgeScan g v = nbrs g v)
    (hsz : (generateCopConfigs g.N k).length * g.N < ROBBIT) (n : Nat) :
    ∀ s < (generateCopConfigs g.N k).length * g.N,
      ¬ Caught g (generateCopConfigs g.N k) s →
      ((k4Run g k n).1.rob.getD s 0 = 1 ↔ (k4Run g k n).1.safe.getD s 0 = 0) := by
  have hinv : K4Inv g (generateCopConfigs g.N k) (k4Run g k n).1 (k4Run g k n).2 := by
    induction n with
    | zero =>
      unfold k4Run
      rw [Function.iterate_zero_apply]
      exact k4Init_inv hNle hirr hscan hsz
    | succ n ih =>
      unfold k4Run at ih ⊢
      rw [Function.iterate_succ_apply']
      exact k4Wave_inv hN1 hNle hirr hsym hscan hsz ih
  intro s hs hc
  have e1 := hinv.snc s hs hc
  have e2 := hinv.riff s hs hc
  constructor
  · intro hr
    have := e2.mp hr
    omega
  · intro hsf
    apply e2.mpr
    omega

/-- Concrete instance of the clean-scan invariant on a graph whose
max-degree row is followed by an empty row. -/
theorem k4_cleanScan_invariant_example :
    (1 ≤ starG4.N ∧ starG4.N ≤ 255 ∧
      (∀ i < starG4.N, starG4.edge i i = false) ∧
      (∀ i < starG4.N, ∀ j < starG4.N, starG4.edge i j = starG4.edge j i) ∧
      (∀ v < starG4.N, edgeScan starG4 v = nbrs starG4 v) ∧
      (generateCopConfigs starG4.N 1).length * starG4.N < ROBBIT ∧
      1 < (generateCopConfigs starG4.N 1).length * starG4.N ∧
      ¬ Caught starG4 (generateCopConfigs starG4.N 1) 1) ∧
    ((k4Run starG4 1 1).1.rob.getD 1 0 = 1 ↔
      (k4Run starG4 1 1).1.safe.getD 1 0 = 0) :=
  ⟨⟨by decide, by decide, by decide, by decide, by decide, by decide, by decide,
      by decide⟩,
    k4_cleanScan_invariant (by decide) (by decide) (by decide) (by decide)
      (by decide) (by decide) 1 1 (by decide) (by decide)⟩

/-- C6: the claim asserts the I2 invariant — `robberWin(C,r) = 1` iff
`safeCount(C,r) = 0`, including the capture states — after
initialization and at the end of every wave of the frontier solvers.
The code violates it in two independent ways.  (a) Capture states, on
every graph: on `P3` with one cop, the capture state `(C=[1], r=1)`
(id 4) has `robberTurnWins = 1`, but after wave 1 its counter has
wrapped to `254 ≠ 0` in `k_cops_4.cpp` (the `fetch_sub` lacks the
`robberTurnWins` guard that `k_cops_3.cpp` has); in the bit-packed
`k_cops_5.cpp` the byte has the cop-win bit set and safe-moves field
`126 ≠ 0`.  (b) Even non-capture states: on the paw graph the spilled
sentinel scan of full row 1 delivers duplicate decrements, so from
wave 2 on the non-capture state `(C=[1], r=3)` (id 7) has
`robberTurnWins = 1` with counter `255 ≠ 0`; the values persist to the
fixpoint — the frontier is empty after wave 5 — and `k_cops_5.cpp`
holds byte `255` there (safe-moves field `127 ≠ 0`). -/
theorem C6_invariant_violated :
    (Caught pathG3 (generateCopConfigs 3 1) 4 ∧
      (k4Run pathG3 1 1).1.rob.getD 4 0 = 1 ∧
      (k4Run pathG3 1 1).1.safe.getD 4 0 = 254 ∧
      (k5Run pathG3 1 1).1.getD 4 0 % 2 = 1 ∧
      (k5Run pathG3 1 1).1.getD 4 0 / 2 = 126) ∧
    (¬ Caught pawG (generateCopConfigs 4 1) 7 ∧
      (k4Run pawG 1 2).1.rob.getD 7 0 = 1 ∧
      (k4Run pawG 1 2).1.safe.getD 7 0 = 255 ∧
      (k4Run pawG 1 5).2 = [] ∧
      (k4Run pawG 1 5).1.rob.getD 7 0 = 1 ∧
      (k4Run pawG 1 5).1.safe.getD 7 0 = 255 ∧
      (k5Run pawG 1 5).1.getD 7 0 = 255) :=
  ⟨⟨by decide, by decide, by decide, by decide, by decide⟩,
    ⟨by decide, by decide, by decide, by decide, by decide, by decide,
      by decide⟩⟩

/-- C7: the claim states that every recorded `stepsToWin(C, r)` of the
depth-tracking solver equals the capture depth given by the spec's
recurrence, over `transitions(C)` and the true closed neighbourhood
`N⁺(r)`, in whole rounds.  On graph `GB` with one cop the solver
terminates with every state cop-winning and records
`stepsToWin([1], 4) = 1` (state id 9, a non-capture state), but the
recurrence's right-hand side
`1 + min { depth(C', 4) : C' ∈ transitions([1]), robberWin(C', 4) = 1 }`
evaluates to `1 + 1 = 2 ≠ 1`.  Root cause: vertex `1` attains the
maximal degree, so its sentinel row scan spills into the next row and
the solver's escape checks use a wrong neighbourhood for robber vertex
`4`. -/
theorem C7_steps_mismatch :
    solveRounds graphB 1 = some ((solveRounds graphB 1).getD ⟨[], [], []⟩) ∧
    ((solveRounds graphB 1).getD ⟨[], [], []⟩).cop.getD 9 0 = 1 ∧
    ¬ Caught graphB (generateCopConfigs 5 1) 9 ∧
    ((solveRounds graphB 1).getD ⟨[], [], []⟩).steps.getD 9 (-1) = 1 ∧
    intMinList (((specTransitions graphB (generateCopConfigs 5 1)
        ((generateCopConfigs 5 1).getD 1 [])).filter
        (fun nc => ((solveRounds graphB 1).getD ⟨[], [], []⟩).rob.getD
          (nc * graphB.N + 4) 0 == 1)).map
        (fun nc => specRobDepth graphB (generateCopConfigs 5 1)
          ((solveRounds graphB 1).getD ⟨[], [], []⟩) nc 4)) = some 1 ∧
    (1 + 1 : Int) ≠ 1 :=
  ⟨by rfl, by rfl, by decide, by rfl, by rfl, by decide⟩

/-- C8 (amended): the `k_cops_5.cpp` solver rejects — returning to the
caller before any state allocation — exactly when `N = 0`, `k > 256`,
or the precomputed 64-bit configuration count is zero.  For a loaded
graph (`N ≥ 1`): an empty graph is always rejected, while `k = 0` is
accepted with the single empty configuration (count 1). -/
theorem C8_gate (N k : Nat) (hN : 1 ≤ N) :
    (solve5Rejects N k = true ↔ (N = 0 ∨ 256 < k ∨ countConfigs k N = 0)) ∧
    solve5Rejects 0 k = true ∧
    solve5Rejects N 0 = false ∧
    countConfigs 0 N = 1 := by
  have hc0 : countConfigs 0 N = 1 := by
    unfold countConfigs
    rw [if_neg (by omega)]
    simp
  refine ⟨?_, ?_, ?_, hc0⟩
  · unfold solve5Rejects
    simp [Bool.or_eq_true, beq_iff_eq, decide_eq_true_iff]
    tauto
  · unfold solve5Rejects
    simp
  · unfold solve5Rejects
    simp [hc0]
    omega

theorem C8_gate_witness :
    ((solve5Rejects 4 2 = true ↔ (4 = 0 ∨ 256 < 2 ∨ countConfigs 2 4 = 0)) ∧
      solve5Rejects 0 2 = true ∧
      solve5Rejects 4 0 = false ∧
      countConfigs 0 4 = 1) ∧ 1 ≤ 4 :=
  ⟨C8_gate 4 2 (by decide), by decide⟩

/-- C8 counterexample: the claim says `k = 256` and `k = 0` are
rejected before any allocation; the failsafe is `k > MAX_COPS` with
`MAX_COPS = 256` and the `k = 0` count is `1`, so both invocations
pass the gate — `generateCopConfigs` even hands back a non-null array
with one configuration in each case. -/
theorem C8_counterexample :
    solve5Rejects 1 256 = false ∧
    solve5Rejects 1 0 = false ∧
    generateCopConfigs5 256 1 = some (1, [List.replicate 256 0]) ∧
    generateCopConfigs5 0 1 = some (1, [[]]) :=
  ⟨by decide, by decide, by decide, by rfl⟩

/-- C9 (amended): the CLI exits `1` exactly when the argument count
differs from `3`.  With three arguments, a cop-count argument on which
`std::stoi` throws (no integer prefix, or out of `int` range) makes
the process terminate abnormally on the uncaught exception; in every
other case `main` returns `0` — even though `Graph(fileName)` never
parses, so the graph is always empty, the solver takes its
"Graph is empty or failed to load" rejection path, and exit code `0`
never indicates a successful solve. -/
theorem C9_exit_codes (args : List (List Nat)) :
    mainExit5 args =
      (if args.length ≠ 3 then some 1
       else if (stoi (args.getD 2 [])).isSome then some 0 else none) ∧
    (Graph_fromFile (args.getD 1 [])).N = 0 ∧
    (∀ k, solve5Rejects (Graph_fromFile (args.getD 1 [])).N k = true) := by
  refine ⟨?_, rfl, fun k => rfl⟩
  unfold mainExit5
  by_cases h : args.length ≠ 3
  · rw [if_pos h, if_pos h]
  · rw [if_neg h, if_neg h]
    cases hst : stoi (args.getD 2 []) with
    | none => rfl
    | some kI => rfl

/-- C9 counterexample: with three well-formed arguments — a plausible
graph file ("4\n") and the numeric cop count "1" — the constructed
graph is empty and the solver rejects it, yet the process exits `0`,
which the claim reserves for success.  (A non-numeric count such as
"x" instead aborts on the uncaught `std::stoi` exception.) -/
theorem C9_exit_codes_counterexample :
    stoi [49] = some 1 ∧
    mainExit5 [[107], [52, 10], [49]] = some 0 ∧
    (Graph_fromFile [52, 10]).N = 0 ∧
    solve5Rejects (Graph_fromFile [52, 10]).N 1 = true ∧
    stoi [120] = none ∧
    mainExit5 [[107], [52, 10], [120]] = none :=
  ⟨by decide, by decide, by decide, by decide, by decide, by decide⟩

/-- C10: the file constructor reads but never parses, leaving
`nodeCount = 0` and the matrix null; consequently every solver entry
point invoked on a file-constructed graph takes its early-return path
and computes nothing — for any file contents and any cop count. -/
theorem C10_file_graph (file : List Nat) (k n : Nat) :
    (Graph_fromFile file).N = 0 ∧
    solveKCops (Graph_fromFile file) k = none ∧
    solveK3 (Graph_fromFile file) k = none ∧
    solveK4 (Graph_fromFile file) k n = none ∧
    solveRounds (Graph_fromFile file) k = none ∧
    solve5Rejects (Graph_fromFile file).N k = true :=
  ⟨rfl, rfl, rfl, rfl, rfl, rfl⟩

end CAR

